import Mathlib

/-!
Verification of the expression-evaluation service of `calculus_core.py`
(`MathCalculator`): five symbolic operations (`derivative`, `calculate`,
`integrate`, `simplify_expression`, `series_expansion`) wrapping an external
symbolic algebra engine (SymPy), normalising every outcome to a result
string (or a pair for `calculate`) and catching every engine fault.

The control flow of each operation is embedded faithfully from the source,
parametrised over an abstract engine whose capabilities may raise
(`Except.error` models a raised Python exception).  Every engine call made
by an operation is recorded in a trace, so "the engine was never invoked
for X" is a provable statement about the returned trace.

A concrete model engine (a small symbolic-expression language with a
lexer, a precedence parser, differentiation, polynomial integration and
printing) instantiates the abstract engine for the claims that depend on
the engine's mathematical behaviour.
-/

namespace CalculusCore

deriving instance DecidableEq for Except

/-- Result of the engine's `sympify`: either a parsed object, a
`SympifyError` (malformed syntax), or any other raised exception carrying
its message (`str(e)` in the source). -/
inductive SymErr : Type
  | sympifyError : SymErr
  | exc (msg : String) : SymErr
deriving DecidableEq

/-- The spec's three-way error taxonomy (§4.1): `ParseError`,
`ValidationError`, `EvaluationError`. -/
inductive ErrKind : Type
  | parseErr : ErrKind
  | validationErr : ErrKind
  | evaluationErr : ErrKind
deriving DecidableEq

/-- Outcome of a string-returning operation: a success string, or an error
message tagged with its kind from the spec's taxonomy.  `render` recovers
the raw string the Python function returns. -/
inductive OpResult : Type
  | ok (s : String) : OpResult
  | err (k : ErrKind) (msg : String) : OpResult
deriving DecidableEq

/-- The string the Python operation actually returns (errors are returned
as their message string). -/
def OpResult.render : OpResult → String
  | .ok s => s
  | .err _ msg => msg

/-- Outcome of `calculate`: a pair (expression text, evaluated value) on
success, or an error message (paired with `None`) tagged with its kind. -/
inductive CalcResult (σ : Type) : Type
  | ok (text : String) (value : σ) : CalcResult σ
  | err (k : ErrKind) (msg : String) : CalcResult σ
deriving DecidableEq

/-- The pair the Python `calculate` actually returns: success gives
`(str(expr), result)`, failure gives `(message, None)`. -/
def CalcResult.render {σ : Type} : CalcResult σ → String × Option σ
  | .ok t v => (t, some v)
  | .err _ msg => (msg, none)

/-- One engine invocation, as recorded in an operation's trace.  `sympifyCall`
remembers which text was parsed. -/
inductive EngineCall : Type
  | sympifyCall (input : String) : EngineCall
  | diffCall : EngineCall
  | subsCall : EngineCall
  | evalfCall : EngineCall
  | integDefCall : EngineCall
  | integIndefCall : EngineCall
  | simplifyCall : EngineCall
  | seriesCall : EngineCall
deriving DecidableEq

/-- The external symbolic algebra engine (SymPy), as the black-box
collaborator the spec describes (§2, §6).  Modelled from the spec: the
engine itself is not part of the repository; each capability takes parsed
objects and either returns a new object or raises (`Except.error msg`
models a raised exception whose `str` is `msg`).  `σ` is the type of
parsed symbolic objects, `ν` the type of substitution values, `ord` the
(dynamically typed) series order argument, `pt` the expansion point. -/
structure Engine (σ ν ord pt : Type) : Type where
  sympify : String → Except SymErr σ
  strOf : σ → String
  diff : σ → σ → Except String σ
  subs : σ → List (String × ν) → Except String σ
  evalf : σ → Except String σ
  integDef : σ → σ → σ → σ → Except String σ
  integIndef : σ → σ → Except String σ
  simplifyE : σ → Except String σ
  seriesE : σ → σ → pt → ord → Except String σ

variable {σ ν ord pt : Type}

/-- `MathCalculator._safe_sympify` (lines 29–37): converts a string via the
engine's `sympify`, catching `SympifyError` as the fixed parse-error
message and any other exception as `"Ошибка: " ++ str(e)` (which the spec's
parsing contract classifies as an `EvaluationError` carrying the engine's
complaint). -/
def safe_sympifyT (E : Engine σ ν ord pt) (value : String) :
    Except (ErrKind × String) σ :=
  match E.sympify value with
  | .ok v => .ok v
  | .error .sympifyError =>
      .error (.parseErr, "Ошибка: некорректный синтаксис выражения")
  | .error (.exc msg) => .error (.evaluationErr, "Ошибка: " ++ msg)

/-- `MathCalculator.derivative` (lines 39–52), with the trace of engine
calls it makes: parse the variable, then the expression (fail-fast on
each), then differentiate inside a `try` whose handler returns the
"невозможно вычислить производную" message. -/
def derivativeT (E : Engine σ ν ord pt) (expression varText : String) :
    OpResult × List EngineCall :=
  match safe_sympifyT E varText with
  | .error e => (.err e.1 e.2, [.sympifyCall varText])
  | .ok var =>
    match safe_sympifyT E expression with
    | .error e => (.err e.1 e.2, [.sympifyCall varText, .sympifyCall expression])
    | .ok expr =>
      match E.diff expr var with
      | .ok d =>
          (.ok (E.strOf d),
           [.sympifyCall varText, .sympifyCall expression, .diffCall])
      | .error m =>
          (.err .evaluationErr
             ("Ошибка: невозможно вычислить производную (" ++ m ++ ")"),
           [.sympifyCall varText, .sympifyCall expression, .diffCall])

/-- `MathCalculator.calculate` (lines 54–72), with its trace: parse the
expression; apply substitutions only when the map is truthy (non-`None`
and non-empty, Python's `if substitutions:`); then `evalf` inside a `try`.
Success returns `(str(expr), result)` for the possibly-substituted
`expr`. -/
def calculateT (E : Engine σ ν ord pt) (expression : String)
    (substitutions : Option (List (String × ν))) :
    CalcResult σ × List EngineCall :=
  match safe_sympifyT E expression with
  | .error e => (.err e.1 e.2, [.sympifyCall expression])
  | .ok expr0 =>
    match substitutions with
    | some m =>
      if m.isEmpty then
        match E.evalf expr0 with
        | .ok r =>
            (.ok (E.strOf expr0) r, [.sympifyCall expression, .evalfCall])
        | .error msg =>
            (.err .evaluationErr ("Ошибка при вычислении: " ++ msg),
             [.sympifyCall expression, .evalfCall])
      else
        match E.subs expr0 m with
        | .error msg =>
            (.err .evaluationErr ("Ошибка в подстановке переменных: " ++ msg),
             [.sympifyCall expression, .subsCall])
        | .ok expr1 =>
          match E.evalf expr1 with
          | .ok r =>
              (.ok (E.strOf expr1) r,
               [.sympifyCall expression, .subsCall, .evalfCall])
          | .error msg =>
              (.err .evaluationErr ("Ошибка при вычислении: " ++ msg),
               [.sympifyCall expression, .subsCall, .evalfCall])
    | none =>
      match E.evalf expr0 with
      | .ok r =>
          (.ok (E.strOf expr0) r, [.sympifyCall expression, .evalfCall])
      | .error msg =>
          (.err .evaluationErr ("Ошибка при вычислении: " ++ msg),
           [.sympifyCall expression, .evalfCall])

/-- `MathCalculator.integrate` (lines 74–105), with its trace: parse the
variable, then the expression (fail-fast); reject a single supplied bound
with the dedicated validation message; with both bounds, parse each (both
are parsed before the check, as in the source) and integrate definitely;
with neither, integrate indefinitely.  Each integration `try`'s handler
produces its distinct message. -/
def integrateT (E : Engine σ ν ord pt) (expression varText : String)
    (lower upper : Option String) : OpResult × List EngineCall :=
  match safe_sympifyT E varText with
  | .error e => (.err e.1 e.2, [.sympifyCall varText])
  | .ok var =>
    match safe_sympifyT E expression with
    | .error e => (.err e.1 e.2, [.sympifyCall varText, .sympifyCall expression])
    | .ok expr =>
      if (lower.isSome ∧ upper = none) ∨ (lower = none ∧ upper.isSome) then
        (.err .validationErr
           "Ошибка: должны быть заданы оба предела интегрирования или ни один.",
         [.sympifyCall varText, .sympifyCall expression])
      else
        match lower, upper with
        | some l, some u =>
          match safe_sympifyT E l, safe_sympifyT E u with
          | .ok a, .ok b =>
            (match E.integDef expr var a b with
             | .ok i =>
                 (.ok (E.strOf i),
                  [.sympifyCall varText, .sympifyCall expression,
                   .sympifyCall l, .sympifyCall u, .integDefCall])
             | .error m =>
                 (.err .evaluationErr
                    ("Ошибка при вычислении определенного интеграла: " ++ m),
                  [.sympifyCall varText, .sympifyCall expression,
                   .sympifyCall l, .sympifyCall u, .integDefCall]))
          | _, _ =>
              (.err .parseErr "Ошибка: некорректные пределы интегрирования",
               [.sympifyCall varText, .sympifyCall expression,
                .sympifyCall l, .sympifyCall u])
        | _, _ =>
          match E.integIndef expr var with
          | .ok i =>
              (.ok (E.strOf i),
               [.sympifyCall varText, .sympifyCall expression, .integIndefCall])
          | .error m =>
              (.err .evaluationErr
                 ("Ошибка при вычислении неопределенного интеграла: " ++ m),
               [.sympifyCall varText, .sympifyCall expression, .integIndefCall])

/-- `MathCalculator.simplify_expression` (lines 107–117), with its trace. -/
def simplify_expressionT (E : Engine σ ν ord pt) (expression : String) :
    OpResult × List EngineCall :=
  match safe_sympifyT E expression with
  | .error e => (.err e.1 e.2, [.sympifyCall expression])
  | .ok expr =>
    match E.simplifyE expr with
    | .ok s => (.ok (E.strOf s), [.sympifyCall expression, .simplifyCall])
    | .error m =>
        (.err .evaluationErr ("Ошибка при упрощении: " ++ m),
         [.sympifyCall expression, .simplifyCall])

/-- `MathCalculator.series_expansion` (lines 119–134), with its trace:
parse the variable, then the expression (fail-fast); then call the
engine's `series(expr, var, x0, n).removeO()` (one combined capability)
inside a `try` whose handler produces the "разложении в ряд" message.  The
order `n` is forwarded to the engine without any validation. -/
def series_expansionT (E : Engine σ ν ord pt) (expression varText : String)
    (n : ord) (x0 : pt) : OpResult × List EngineCall :=
  match safe_sympifyT E varText with
  | .error e => (.err e.1 e.2, [.sympifyCall varText])
  | .ok var =>
    match safe_sympifyT E expression with
    | .error e => (.err e.1 e.2, [.sympifyCall varText, .sympifyCall expression])
    | .ok expr =>
      match E.seriesE expr var x0 n with
      | .ok s =>
          (.ok (E.strOf s),
           [.sympifyCall varText, .sympifyCall expression, .seriesCall])
      | .error m =>
          (.err .evaluationErr ("Ошибка при разложении в ряд: " ++ m),
           [.sympifyCall varText, .sympifyCall expression, .seriesCall])

/-!
## The model engine

Modelled from the spec: the external algebra engine (SymPy) is not part of
the repository; the spec (§2, §6) treats it as a black box providing
parsing, differentiation, integration, simplification, series expansion,
substitution and numeric evaluation.  The model below realises those
capabilities over a small symbolic-expression language (rational numerals,
symbols, `+`, `*`, `**`, with `a - b` read as `a + (-1)*b` and `a / b` as
`a * b**(-1)`, as SymPy represents them).  Construction auto-evaluates
numeric subterms and the identities `x + 0`, `x * 1`, `x * 0`, `x ** 1`,
`x ** 0`, mirroring SymPy's automatic evaluation.
-/

/-- Tokens of the model expression language. -/
inductive Tok : Type
  | nat (n : Nat) : Tok
  | ident (s : String) : Tok
  | plus : Tok
  | minus : Tok
  | star : Tok
  | slash : Tok
  | dstar : Tok
  | lpar : Tok
  | rpar : Tok
deriving DecidableEq

/-- The decimal digit character for `d < 10`. -/
def digitChar (d : Nat) : Char := Char.ofNat (48 + d)

/-- Decimal digits of `n`, most significant first, with fuel. -/
def natCharsAux : Nat → Nat → List Char
  | 0, _ => []
  | f + 1, n =>
    if n < 10 then [digitChar n]
    else natCharsAux f (n / 10) ++ [digitChar (n % 10)]

/-- Decimal digits of `n`, most significant first. -/
def natChars (n : Nat) : List Char := natCharsAux (n + 1) n

/-- Value of a list of decimal digit characters. -/
def digitsVal (l : List Char) : Nat :=
  l.foldl (fun a c => 10 * a + (c.toNat - 48)) 0

/-- Longest digit run at the head of the input. -/
def takeDigits : List Char → List Char × List Char
  | [] => ([], [])
  | c :: cs =>
    if c.isDigit then
      match takeDigits cs with
      | (ds, r) => (c :: ds, r)
    else ([], c :: cs)

/-- Characters that may start an identifier. -/
def isIdentStart (c : Char) : Bool := c.isAlpha || c = '_'

/-- Characters that may continue an identifier. -/
def isIdentChar (c : Char) : Bool := c.isAlpha || c.isDigit || c = '_'

/-- Longest identifier-character run at the head of the input. -/
def takeIdent : List Char → List Char × List Char
  | [] => ([], [])
  | c :: cs =>
    if isIdentChar c then
      match takeIdent cs with
      | (xs, r) => (c :: xs, r)
    else ([], c :: cs)

/-- The lexer: spaces separate tokens, `**` is a single token, unknown
characters fail.  Fuel-driven; fuel `length + 1` always suffices. -/
def lexLoop : Nat → List Char → Option (List Tok)
  | 0, _ => none
  | _ + 1, [] => some []
  | f + 1, c :: cs =>
    if c = ' ' then lexLoop f cs
    else if c.isDigit then
      match takeDigits (c :: cs) with
      | (ds, r) => (lexLoop f r).map fun ts => Tok.nat (digitsVal ds) :: ts
    else if isIdentStart c then
      match takeIdent (c :: cs) with
      | (xs, r) => (lexLoop f r).map fun ts => Tok.ident (String.mk xs) :: ts
    else if c = '+' then (lexLoop f cs).map fun ts => Tok.plus :: ts
    else if c = '-' then (lexLoop f cs).map fun ts => Tok.minus :: ts
    else if c = '*' then
      match cs with
      | '*' :: cs' => (lexLoop f cs').map fun ts => Tok.dstar :: ts
      | _ => (lexLoop f cs).map fun ts => Tok.star :: ts
    else if c = '/' then (lexLoop f cs).map fun ts => Tok.slash :: ts
    else if c = '(' then (lexLoop f cs).map fun ts => Tok.lpar :: ts
    else if c = ')' then (lexLoop f cs).map fun ts => Tok.rpar :: ts
    else none

/-- Symbolic expressions of the model engine. -/
inductive MExpr : Type
  | num (q : ℚ) : MExpr
  | sym (s : String) : MExpr
  | add (a b : MExpr) : MExpr
  | mul (a b : MExpr) : MExpr
  | pow (a b : MExpr) : MExpr
deriving DecidableEq

/-- Is the expression a numeral? -/
def isNum : MExpr → Bool
  | .num _ => true
  | _ => false

/-- SymPy-style auto-evaluating sum: numerals fold, zero is dropped. -/
def mkAdd : MExpr → MExpr → MExpr
  | .num p, .num q => .num (p + q)
  | .num p, b => if p = 0 then b else .add (.num p) b
  | a, .num q => if q = 0 then a else .add a (.num q)
  | a, b => .add a b

/-- SymPy-style auto-evaluating product: numerals fold, zero annihilates,
one is dropped. -/
def mkMul : MExpr → MExpr → MExpr
  | .num p, .num q => .num (p * q)
  | .num p, b =>
    if p = 0 then .num 0 else if p = 1 then b else .mul (.num p) b
  | a, .num q =>
    if q = 0 then .num 0 else if q = 1 then a else .mul a (.num q)
  | a, b => .mul a b

/-- A numeral power `p ** q` folds exactly when the exponent is an integer
and the base is nonzero or the exponent nonnegative. -/
def powFoldB (p q : ℚ) : Bool :=
  q.den == 1 && (!(p == 0) || decide (0 ≤ q.num))

/-- SymPy-style auto-evaluating power: integer numeral powers fold,
`a ** 1 = a`, `a ** 0 = 1`. -/
def mkPow : MExpr → MExpr → MExpr
  | .num p, .num q =>
    if powFoldB p q then .num (p ^ q.num) else .pow (.num p) (.num q)
  | a, .num q =>
    if q = 0 then .num 1 else if q = 1 then a else .pow a (.num q)
  | a, b => .pow a b

mutual

/-- Atom: numeral, identifier, or parenthesised sum. -/
def pAtom : Nat → List Tok → Option (MExpr × List Tok)
  | 0, _ => none
  | _ + 1, Tok.nat n :: ts => some (MExpr.num n, ts)
  | _ + 1, Tok.ident s :: ts => some (MExpr.sym s, ts)
  | f + 1, Tok.lpar :: ts =>
    match pSum f ts with
    | some (e, Tok.rpar :: ts') => some (e, ts')
    | _ => none
  | _ + 1, _ => none

/-- Power: atom, optionally `** factor` (right-associative; the exponent
may carry a unary minus, as in Python). -/
def pPow : Nat → List Tok → Option (MExpr × List Tok)
  | 0, _ => none
  | f + 1, ts =>
    match pAtom f ts with
    | some (a, Tok.dstar :: ts') =>
      match pFactor f ts' with
      | some (b, ts'') => some (mkPow a b, ts'')
      | none => none
    | some (a, ts') => some (a, ts')
    | none => none

/-- Factor: unary minus (`-x` is `(-1) * x`, binding looser than `**`, as
in Python) or a power. -/
def pFactor : Nat → List Tok → Option (MExpr × List Tok)
  | 0, _ => none
  | f + 1, Tok.minus :: ts =>
    match pFactor f ts with
    | some (a, ts') => some (mkMul (MExpr.num (-1)) a, ts')
    | none => none
  | f + 1, ts => pPow f ts

/-- Product: factors joined by `*` or `/` (`a / b` is `a * b ** (-1)`). -/
def pProd : Nat → List Tok → Option (MExpr × List Tok)
  | 0, _ => none
  | f + 1, ts =>
    match pFactor f ts with
    | some (a, ts') => pProdLoop f a ts'
    | none => none

/-- Left fold of the remaining `* factor` / `/ factor` items. -/
def pProdLoop : Nat → MExpr → List Tok → Option (MExpr × List Tok)
  | 0, _, _ => none
  | f + 1, acc, Tok.star :: ts =>
    match pFactor f ts with
    | some (b, ts') => pProdLoop f (mkMul acc b) ts'
    | none => none
  | f + 1, acc, Tok.slash :: ts =>
    match pFactor f ts with
    | some (b, ts') => pProdLoop f (mkMul acc (mkPow b (MExpr.num (-1)))) ts'
    | none => none
  | _ + 1, acc, ts => some (acc, ts)

/-- Sum: products joined by `+` or `-` (`a - b` is `a + (-1) * b`). -/
def pSum : Nat → List Tok → Option (MExpr × List Tok)
  | 0, _ => none
  | f + 1, ts =>
    match pProd f ts with
    | some (a, ts') => pSumLoop f a ts'
    | none => none

/-- Left fold of the remaining `+ prod` / `- prod` items. -/
def pSumLoop : Nat → MExpr → List Tok → Option (MExpr × List Tok)
  | 0, _, _ => none
  | f + 1, acc, Tok.plus :: ts =>
    match pProd f ts with
    | some (b, ts') => pSumLoop f (mkAdd acc b) ts'
    | none => none
  | f + 1, acc, Tok.minus :: ts =>
    match pProd f ts with
    | some (b, ts') => pSumLoop f (mkAdd acc (mkMul (MExpr.num (-1)) b)) ts'
    | none => none
  | _ + 1, acc, ts => some (acc, ts)

end

/-- The model engine's `sympify`: lex, then parse the whole token list.
Any failure is a `SympifyError` (malformed syntax). -/
def msympify (s : String) : Except SymErr MExpr :=
  match lexLoop (s.data.length + 1) s.data with
  | none => .error .sympifyError
  | some ts =>
    match pSum (8 * ts.length + 16) ts with
    | some (e, []) => .ok e
    | _ => .error .sympifyError

/-- Characters of one token. -/
def renderTok : Tok → List Char
  | .nat n => natChars n
  | .ident s => s.data
  | .plus => ['+']
  | .minus => ['-']
  | .star => ['*']
  | .slash => ['/']
  | .dstar => ['*', '*']
  | .lpar => ['(']
  | .rpar => [')']

/-- Characters of a token list, single-space separated. -/
def renderToks : List Tok → List Char
  | [] => []
  | [t] => renderTok t
  | t :: ts => renderTok t ++ ' ' :: renderToks ts

/-- Token form of a numeral: nonnegative integers are bare, negative or
non-integer rationals are parenthesised (as SymPy's printer parenthesises
them where needed for re-parsing). -/
def printNum (q : ℚ) : List Tok :=
  if q.den = 1 then
    if q.num < 0 then [.lpar, .minus, .nat q.num.natAbs, .rpar]
    else [.nat q.num.natAbs]
  else
    if q.num < 0 then
      [.lpar, .minus, .nat q.num.natAbs, .slash, .nat q.den, .rpar]
    else [.lpar, .nat q.num.natAbs, .slash, .nat q.den, .rpar]

/-- Token form of an expression: compound nodes are fully parenthesised,
so that printing is injective and re-parsing recovers the expression. -/
def printToks : MExpr → List Tok
  | .num q => printNum q
  | .sym s => [.ident s]
  | .add a b => .lpar :: (printToks a ++ .plus :: (printToks b ++ [.rpar]))
  | .mul a b => .lpar :: (printToks a ++ .star :: (printToks b ++ [.rpar]))
  | .pow a b => .lpar :: (printToks a ++ .dstar :: (printToks b ++ [.rpar]))

/-- The model engine's `str`. -/
def mstr (e : MExpr) : String := String.mk (renderToks (printToks e))

/-- Symbols occurring in an expression. -/
def mvars : MExpr → List String
  | .num _ => []
  | .sym s => [s]
  | .add a b => mvars a ++ mvars b
  | .mul a b => mvars a ++ mvars b
  | .pow a b => mvars a ++ mvars b

/-- Symbolic differentiation with respect to the symbol `v` (sum, product
and power rules with auto-evaluating constructors); powers whose exponent
mentions `v` are not supported by the model. -/
def ediff : MExpr → String → Option MExpr
  | .num _, _ => some (.num 0)
  | .sym s, v => some (if s = v then .num 1 else .num 0)
  | .add a b, v =>
    match ediff a v, ediff b v with
    | some da, some db => some (mkAdd da db)
    | _, _ => none
  | .mul a b, v =>
    match ediff a v, ediff b v with
    | some da, some db => some (mkAdd (mkMul da b) (mkMul a db))
    | _, _ => none
  | .pow a b, v =>
    if v ∈ mvars b then none
    else
      match ediff a v with
      | some da =>
          some (mkMul (mkMul b (mkPow a (mkAdd b (.num (-1))))) da)
      | none => none

/-- Well-formed identifier: what the lexer can produce as an `ident`
(first character starts an identifier and, by the lexer's branch order,
is neither a digit nor a space; the rest are identifier characters). -/
def wfIdent (s : String) : Bool :=
  match s.data with
  | [] => false
  | c :: cs =>
      isIdentStart c && !c.isDigit && !(c == ' ') && cs.all isIdentChar

/-- Does `mkPow` fold this pair of operands? -/
def powFoldAB : MExpr → MExpr → Bool
  | .num p, .num q => powFoldB p q
  | _, _ => false

/-- Auto-evaluated (canonical) expressions: exactly those on which no
rule of `mkAdd`/`mkMul`/`mkPow` fires and whose symbols are lexable. -/
def canonB : MExpr → Bool
  | .num _ => true
  | .sym s => wfIdent s
  | .add a b =>
      canonB a && canonB b && !(isNum a && isNum b) &&
      !(a == .num 0) && !(b == .num 0)
  | .mul a b =>
      canonB a && canonB b && !(isNum a && isNum b) &&
      !(a == .num 0) && !(a == .num 1) && !(b == .num 0) && !(b == .num 1)
  | .pow a b =>
      canonB a && canonB b && !(powFoldAB a b) &&
      !(b == .num 0) && !(b == .num 1)

/-- Rebuild an expression through the auto-evaluating constructors: the
model engine's `simplify` (best-effort canonicalisation; the spec allows
returning an unchanged equivalent form). -/
def recanon : MExpr → MExpr
  | .num q => .num q
  | .sym s => .sym s
  | .add a b => mkAdd (recanon a) (recanon b)
  | .mul a b => mkMul (recanon a) (recanon b)
  | .pow a b => mkPow (recanon a) (recanon b)

/-- First binding of `s` in the substitution list. -/
def lookupSub (s : String) : List (String × ℚ) → Option ℚ
  | [] => none
  | (k, v) :: r => if k = s then some v else lookupSub s r

/-- Substitution of numeric values for symbols (SymPy `subs`), rebuilding
with auto-evaluation. -/
def msubst : MExpr → List (String × ℚ) → MExpr
  | .num q, _ => .num q
  | .sym s, m =>
    match lookupSub s m with
    | some v => .num v
    | none => .sym s
  | .add a b, m => mkAdd (msubst a m) (msubst b m)
  | .mul a b, m => mkMul (msubst a m) (msubst b m)
  | .pow a b, m => mkPow (msubst a m) (msubst b m)

/-- Dense polynomial sum (coefficient lists, lowest degree first). -/
def polyAdd : List ℚ → List ℚ → List ℚ
  | [], q => q
  | p, [] => p
  | c :: p, d :: q => (c + d) :: polyAdd p q

/-- Scale a coefficient list. -/
def polyScale (c : ℚ) (p : List ℚ) : List ℚ := p.map fun d => c * d

/-- Dense polynomial product. -/
def polyMul : List ℚ → List ℚ → List ℚ
  | [], _ => []
  | c :: p, q => polyAdd (polyScale c q) (0 :: polyMul p q)

/-- Dense polynomial power. -/
def polyPow (p : List ℚ) : Nat → List ℚ
  | 0 => [1]
  | n + 1 => polyMul p (polyPow p n)

/-- Evaluate a coefficient list at `x` (Horner form). -/
def evalPoly (p : List ℚ) (x : ℚ) : ℚ :=
  p.foldr (fun c acc => c + x * acc) 0

/-- View an expression as a univariate polynomial in the symbol `s`
(coefficient list, lowest degree first); other symbols make it fail, as
does a non-numeral or negative or fractional exponent. -/
def toPoly : MExpr → String → Option (List ℚ)
  | .num q, _ => some [q]
  | .sym t, s => if t = s then some [0, 1] else none
  | .add a b, s =>
    match toPoly a s, toPoly b s with
    | some p, some q => some (polyAdd p q)
    | _, _ => none
  | .mul a b, s =>
    match toPoly a s, toPoly b s with
    | some p, some q => some (polyMul p q)
    | _, _ => none
  | .pow a b, s =>
    match toPoly a s, b with
    | some p, .num q =>
        if q.den = 1 ∧ 0 ≤ q.num then some (polyPow p q.num.toNat) else none
    | _, _ => none

/-- Expression of the monomial sum `Σ cᵢ · s^(i0+i)` over a coefficient
list, built with the auto-evaluating constructors. -/
def fromPolyAux : List ℚ → String → Nat → MExpr
  | [], _, _ => .num 0
  | c :: p, s, i =>
      mkAdd (mkMul (.num c) (mkPow (.sym s) (.num (i : ℚ))))
        (fromPolyAux p s (i + 1))

/-- Expression of the polynomial with coefficient list `p` in symbol `s`. -/
def fromPoly (p : List ℚ) (s : String) : MExpr := fromPolyAux p s 0

/-- Antiderivative coefficients: `polyIntegAux p i` divides each `cᵢ₊` by
its new degree. -/
def polyIntegAux : List ℚ → Nat → List ℚ
  | [], _ => []
  | c :: p, i => (c / ((i : ℚ) + 1)) :: polyIntegAux p (i + 1)

/-- Antiderivative coefficient list (constant of integration zero). -/
def polyInteg (p : List ℚ) : List ℚ := 0 :: polyIntegAux p 0

/-- Rational-valued semantics of an expression under an assignment of the
symbols; `a ** b` reads the exponent as the integer `(meval b).num`
(exponents are integer numerals on the polynomial fragment where this
semantics is used). -/
def meval : MExpr → (String → ℚ) → ℚ
  | .num q, _ => q
  | .sym s, ρ => ρ s
  | .add a b, ρ => meval a ρ + meval b ρ
  | .mul a b, ρ => meval a ρ * meval b ρ
  | .pow a b, ρ => meval a ρ ^ (meval b ρ).num

/-- The series-order argument as the dynamically typed value Python
passes: an integer, or a value of some other runtime type (represented by
a string), on which the engine's expansion raises. -/
inductive MOrd : Type
  | intOrd (k : Int) : MOrd
  | strOrd (s : String) : MOrd
deriving DecidableEq

/-- Model `diff`: differentiation demands a symbol as the variable. -/
def mdiffE (e v : MExpr) : Except String MExpr :=
  match v with
  | .sym s =>
    match ediff e s with
    | some d => .ok d
    | none => .error "unsupported derivative"
  | _ => .error "can not differentiate with respect to a non-symbol"

/-- Model indefinite integration: succeeds on univariate polynomials in
the integration symbol. -/
def mintegIndef (e v : MExpr) : Except String MExpr :=
  match v with
  | .sym s =>
    match toPoly e s with
    | some p => .ok (fromPoly (polyInteg p) s)
    | none => .error "integral could not be computed"
  | _ => .error "not a symbol"

/-- Model definite integration over numeral bounds, via the
antiderivative. -/
def mintegDef (e v a b : MExpr) : Except String MExpr :=
  match v with
  | .sym s =>
    match toPoly e s, a, b with
    | some p, .num qa, .num qb =>
        .ok (.num (evalPoly (polyInteg p) qb - evalPoly (polyInteg p) qa))
    | _, _, _ => .error "definite integral could not be computed"
  | _ => .error "not a symbol"

/-- Model `subs`: substitution of numeric bindings never raises. -/
def msubsE (e : MExpr) (m : List (String × ℚ)) : Except String MExpr :=
  .ok (msubst e m)

/-- Model `evalf`, after SymPy's documented behaviour: numeric evaluation
returns the (partially) evaluated expression and does not raise when free
symbols remain — the value slot simply still contains a symbolic
expression.  The model keeps values exact. -/
def mevalfE (e : MExpr) : Except String MExpr := .ok e

/-- Model `series(expr, var, x0, n).removeO()`: truncation of the
polynomial below degree `n` around `0`; a non-integer runtime value for
`n` raises (as SymPy's expansion machinery does when handed a
non-numeric order). -/
def mseriesE (e v : MExpr) (x0 : ℚ) (n : MOrd) : Except String MExpr :=
  match n with
  | .strOrd _ => .error "unsupported comparison between instances of str and int"
  | .intOrd k =>
    match v with
    | .sym s =>
      if x0 = 0 then
        if 0 ≤ k then
          match toPoly e s with
          | some p => .ok (fromPoly (p.take k.toNat) s)
          | none => .error "series could not be computed"
        else .error "invalid series order"
      else .error "expansion point not supported"
    | _ => .error "not a symbol"

/-- Model `simplify`: canonicalisation through the auto-evaluating
constructors (a terminating, equivalence-preserving best effort, as the
spec requires of the engine). -/
def msimplifyE (e : MExpr) : Except String MExpr := .ok (recanon e)

/-- The model engine assembled. -/
def mEngine : Engine MExpr ℚ MOrd ℚ where
  sympify := msympify
  strOf := mstr
  diff := mdiffE
  subs := msubsE
  evalf := mevalfE
  integDef := mintegDef
  integIndef := mintegIndef
  simplifyE := msimplifyE
  seriesE := mseriesE

/-!
## Derived definitions used by the statements
-/

/-- The fixed parse-error message of `_safe_sympify`. -/
def parseMsg : String := "Ошибка: некорректный синтаксис выражения"

/-- The dedicated bound-pairing validation message of `integrate`. -/
def boundsMsg : String :=
  "Ошибка: должны быть заданы оба предела интегрирования или ни один."

/-- The invalid-bounds message of `integrate`. -/
def invalidBoundsMsg : String := "Ошибка: некорректные пределы интегрирования"

/-- The tagged error `_safe_sympify` produces for each way `sympify` can
raise. -/
def sympifyFailRes : SymErr → ErrKind × String
  | .sympifyError => (.parseErr, parseMsg)
  | .exc msg => (.evaluationErr, "Ошибка: " ++ msg)

/-- Every outcome `derivative` can produce: a success string, or one of its
enumerated failure messages with its kind from the taxonomy. -/
def derivOutcome (r : OpResult) : Prop :=
  (∃ s, r = .ok s) ∨
  r = .err .parseErr parseMsg ∨
  (∃ d, r = .err .evaluationErr ("Ошибка: " ++ d)) ∨
  (∃ d, r = .err .evaluationErr
    ("Ошибка: невозможно вычислить производную (" ++ d ++ ")"))

/-- Every outcome `integrate` can produce. -/
def integOutcome (r : OpResult) : Prop :=
  (∃ s, r = .ok s) ∨
  r = .err .parseErr parseMsg ∨
  (∃ d, r = .err .evaluationErr ("Ошибка: " ++ d)) ∨
  r = .err .validationErr boundsMsg ∨
  r = .err .parseErr invalidBoundsMsg ∨
  (∃ d, r = .err .evaluationErr
    ("Ошибка при вычислении определенного интеграла: " ++ d)) ∨
  (∃ d, r = .err .evaluationErr
    ("Ошибка при вычислении неопределенного интеграла: " ++ d))

/-- Every outcome `calculate` can produce (the error slot pairs with
`None` through `CalcResult.render`). -/
def calcOutcome {σ : Type} (r : CalcResult σ) : Prop :=
  (∃ t val, r = .ok t val) ∨
  r = .err .parseErr parseMsg ∨
  (∃ d, r = .err .evaluationErr ("Ошибка: " ++ d)) ∨
  (∃ d, r = .err .evaluationErr ("Ошибка в подстановке переменных: " ++ d)) ∨
  (∃ d, r = .err .evaluationErr ("Ошибка при вычислении: " ++ d))

/-- Every outcome `simplify_expression` can produce. -/
def simpOutcome (r : OpResult) : Prop :=
  (∃ s, r = .ok s) ∨
  r = .err .parseErr parseMsg ∨
  (∃ d, r = .err .evaluationErr ("Ошибка: " ++ d)) ∨
  (∃ d, r = .err .evaluationErr ("Ошибка при упрощении: " ++ d))

/-- Every outcome `series_expansion` can produce. -/
def seriesOutcome (r : OpResult) : Prop :=
  (∃ s, r = .ok s) ∨
  r = .err .parseErr parseMsg ∨
  (∃ d, r = .err .evaluationErr ("Ошибка: " ++ d)) ∨
  (∃ d, r = .err .evaluationErr ("Ошибка при разложении в ряд: " ++ d))

/-- The string begins with the six characters "Ошибка" (the common marker
of every failure message at the public interface). -/
def isErrorMarked (m : String) : Prop := m.data.take 6 = "Ошибка".data

instance (m : String) : Decidable (isErrorMarked m) :=
  inferInstanceAs (Decidable (m.data.take 6 = "Ошибка".data))

/-- Size of an expression, used to budget parser fuel. -/
def esize : MExpr → Nat
  | .num _ => 1
  | .sym _ => 1
  | .add a b => esize a + esize b + 1
  | .mul a b => esize a + esize b + 1
  | .pow a b => esize a + esize b + 1

/-- A token the lexer can actually produce (identifier tokens carry
lexable names). -/
def wfTok : Tok → Bool
  | .ident s => wfIdent s
  | _ => true

/-- All tokens of the list are producible by the lexer. -/
def wfToks (ts : List Tok) : Bool := ts.all wfTok

/-- The Mathlib polynomial denoted by a coefficient list (lowest degree
first): the semantic bridge used to reason about differentiation and
integration of the model engine's polynomial fragment. -/
noncomputable def toMathPoly : List ℚ → Polynomial ℚ
  | [] => 0
  | c :: p => Polynomial.C c + Polynomial.X * toMathPoly p

/-!
## Facts about the auto-evaluating constructors
-/

theorem mkMul_zero_left (b : MExpr) : mkMul (.num 0) b = .num 0 := by
  cases b <;> simp [mkMul]

theorem mkMul_zero_right (a : MExpr) : mkMul a (.num 0) = .num 0 := by
  cases a <;> simp [mkMul]

theorem mkAdd_zero_zero : mkAdd (.num 0) (.num 0) = .num 0 := by
  simp [mkAdd]

theorem mkAdd_num_zero_right (a : MExpr) : mkAdd a (.num 0) = a := by
  cases a <;> simp [mkAdd]

/-- Differentiating with respect to a symbol that does not occur gives the
numeral zero (and never fails), as in SymPy. -/
theorem ediff_not_occurs (e : MExpr) (v : String) (h : v ∉ mvars e) :
    ediff e v = some (.num 0) := by
  induction e with
  | num q => rfl
  | sym s =>
      simp only [mvars, List.mem_singleton] at h
      simp only [ediff]
      rw [if_neg fun hh => h hh.symm]
  | add a b iha ihb =>
      simp only [mvars, List.mem_append] at h
      push_neg at h
      simp [ediff, iha h.1, ihb h.2, mkAdd_zero_zero]
  | mul a b iha ihb =>
      simp only [mvars, List.mem_append] at h
      push_neg at h
      simp [ediff, iha h.1, ihb h.2, mkMul_zero_left, mkMul_zero_right,
        mkAdd_zero_zero]
  | pow a b iha ihb =>
      simp only [mvars, List.mem_append] at h
      push_neg at h
      simp [ediff, h.2, iha h.1, mkMul_zero_right]

theorem mkAdd_canon {a b : MExpr} (ha : canonB a = true)
    (hb : canonB b = true) : canonB (mkAdd a b) = true := by
  cases a <;> cases b <;> simp_all [mkAdd, canonB, isNum] <;>
    split_ifs <;> simp_all [canonB, isNum]

theorem mkMul_canon {a b : MExpr} (ha : canonB a = true)
    (hb : canonB b = true) : canonB (mkMul a b) = true := by
  cases a <;> cases b <;> simp_all [mkMul, canonB, isNum] <;>
    split_ifs <;> simp_all [canonB, isNum, powFoldAB]

theorem powFoldB_false_ne {p q : ℚ} (h : powFoldB p q = false) :
    ¬ q = 0 ∧ ¬ q = 1 := by
  constructor <;> rintro rfl <;>
    rw [show powFoldB p _ = true by simp [powFoldB]] at h <;> cases h

theorem mkPow_canon {a b : MExpr} (ha : canonB a = true)
    (hb : canonB b = true) : canonB (mkPow a b) = true := by
  cases a <;> cases b <;> simp_all [mkPow, canonB, isNum, powFoldAB] <;>
    split_ifs with hf <;>
    first
      | rfl
      | (simp_all [canonB, isNum, powFoldAB]; done)
      | (have hq := powFoldB_false_ne (Bool.eq_false_iff.mpr hf);
         simp_all [canonB, isNum, powFoldAB, hq.1, hq.2]; done)

theorem mkAdd_of_canon {a b : MExpr} (h : canonB (.add a b) = true) :
    mkAdd a b = .add a b := by
  simp only [canonB, Bool.and_eq_true] at h
  obtain ⟨⟨⟨⟨-, -⟩, hnum⟩, h0a⟩, h0b⟩ := h
  cases a <;> cases b <;> simp_all [mkAdd, isNum]

theorem mkMul_of_canon {a b : MExpr} (h : canonB (.mul a b) = true) :
    mkMul a b = .mul a b := by
  simp only [canonB, Bool.and_eq_true] at h
  obtain ⟨⟨⟨⟨⟨⟨-, -⟩, hnum⟩, h0a⟩, h1a⟩, h0b⟩, h1b⟩ := h
  cases a <;> cases b <;> simp_all [mkMul, isNum]

theorem mkPow_of_canon {a b : MExpr} (h : canonB (.pow a b) = true) :
    mkPow a b = .pow a b := by
  simp only [canonB, Bool.and_eq_true] at h
  obtain ⟨⟨⟨⟨-, -⟩, hfold⟩, h0b⟩, h1b⟩ := h
  cases a <;> cases b <;> simp_all [mkPow, isNum, powFoldAB]

theorem meval_mkAdd (a b : MExpr) (ρ : String → ℚ) :
    meval (mkAdd a b) ρ = meval a ρ + meval b ρ := by
  cases a <;> cases b <;> simp [mkAdd, meval] <;>
    split_ifs <;> simp_all [meval]

theorem meval_mkMul (a b : MExpr) (ρ : String → ℚ) :
    meval (mkMul a b) ρ = meval a ρ * meval b ρ := by
  cases a <;> cases b <;> simp [mkMul, meval] <;>
    split_ifs <;> simp_all [meval]

theorem meval_mkPow (a b : MExpr) (ρ : String → ℚ) :
    meval (mkPow a b) ρ = meval a ρ ^ (meval b ρ).num := by
  cases a <;> cases b <;> simp [mkPow, meval] <;>
    split_ifs <;> simp_all [meval]

theorem recanon_of_canon : ∀ {t : MExpr}, canonB t = true → recanon t = t := by
  intro t
  induction t with
  | num q => intro _; rfl
  | sym s => intro _; rfl
  | add a b iha ihb =>
      intro h
      have h' := h
      simp only [canonB, Bool.and_eq_true] at h'
      rw [recanon, iha h'.1.1.1.1, ihb h'.1.1.1.2, mkAdd_of_canon h]
  | mul a b iha ihb =>
      intro h
      have h' := h
      simp only [canonB, Bool.and_eq_true] at h'
      rw [recanon, iha h'.1.1.1.1.1.1, ihb h'.1.1.1.1.1.2, mkMul_of_canon h]
  | pow a b iha ihb =>
      intro h
      have h' := h
      simp only [canonB, Bool.and_eq_true] at h'
      rw [recanon, iha h'.1.1.1.1, ihb h'.1.1.1.2, mkPow_of_canon h]

/-!
## Numeral and lexer facts
-/

theorem digitChar_isDigit {d : Nat} (h : d < 10) :
    (digitChar d).isDigit = true := by
  interval_cases d <;> decide

theorem digitChar_toNat {d : Nat} (h : d < 10) :
    (digitChar d).toNat = 48 + d := by
  interval_cases d <;> decide

theorem digitsVal_append (xs : List Char) (c : Char) :
    digitsVal (xs ++ [c]) = 10 * digitsVal xs + (c.toNat - 48) := by
  simp [digitsVal, List.foldl_append]

theorem natCharsAux_spec :
    ∀ f n, n < f →
      (natCharsAux f n).all Char.isDigit = true ∧
      natCharsAux f n ≠ [] ∧
      digitsVal (natCharsAux f n) = n := by
  intro f
  induction f with
  | zero => intro n h; exact absurd h (Nat.not_lt_zero n)
  | succ f ih =>
    intro n hn
    by_cases h10 : n < 10
    · refine ⟨?_, ?_, ?_⟩
      · simp [natCharsAux, h10, digitChar_isDigit h10]
      · simp [natCharsAux, h10]
      · simp [natCharsAux, h10, digitsVal, digitChar_toNat h10]
    · have hdiv : n / 10 < f := by
        have h1 : n / 10 < n := Nat.div_lt_self (by omega) (by omega)
        omega
      obtain ⟨ha, hne, hv⟩ := ih (n / 10) hdiv
      have hmod : n % 10 < 10 := Nat.mod_lt n (by omega)
      refine ⟨?_, ?_, ?_⟩
      · simp [natCharsAux, h10, List.all_append, ha,
          digitChar_isDigit hmod]
      · simp [natCharsAux, h10]
      · rw [show natCharsAux (f + 1) n =
            natCharsAux f (n / 10) ++ [digitChar (n % 10)] by
              simp [natCharsAux, h10]]
        rw [digitsVal_append, hv, digitChar_toNat hmod]
        omega

theorem natChars_all_digits (n : Nat) :
    (natChars n).all Char.isDigit = true :=
  (natCharsAux_spec (n + 1) n (Nat.lt_succ_self n)).1

theorem natChars_ne_nil (n : Nat) : natChars n ≠ [] :=
  (natCharsAux_spec (n + 1) n (Nat.lt_succ_self n)).2.1

theorem digitsVal_natChars (n : Nat) : digitsVal (natChars n) = n :=
  (natCharsAux_spec (n + 1) n (Nat.lt_succ_self n)).2.2

theorem digit_not_space {c : Char} (h : c.isDigit = true) : ¬ c = ' ' := by
  intro he
  subst he
  exact absurd h (by decide)

theorem takeDigits_of_all {ds r : List Char}
    (h : ds.all Char.isDigit = true)
    (hr : r = [] ∨ ∃ c cs, r = c :: cs ∧ c.isDigit = false) :
    takeDigits (ds ++ r) = (ds, r) := by
  induction ds with
  | nil =>
    rcases hr with hr | ⟨c, cs, hr, hc⟩
    · subst hr; rfl
    · subst hr; simp [takeDigits, hc]
  | cons c ds ih =>
    simp only [List.all_cons, Bool.and_eq_true] at h
    simp [takeDigits, h.1, ih h.2]

theorem takeIdent_of_all {xs r : List Char}
    (h : xs.all isIdentChar = true)
    (hr : r = [] ∨ ∃ c cs, r = c :: cs ∧ isIdentChar c = false) :
    takeIdent (xs ++ r) = (xs, r) := by
  induction xs with
  | nil =>
    rcases hr with hr | ⟨c, cs, hr, hc⟩
    · subst hr; rfl
    · subst hr; simp [takeIdent, hc]
  | cons c xs ih =>
    simp only [List.all_cons, Bool.and_eq_true] at h
    simp [takeIdent, h.1, ih h.2]

theorem isIdentStart_isIdentChar {c : Char} (h : isIdentStart c = true) :
    isIdentChar c = true := by
  simp only [isIdentStart, Bool.or_eq_true] at h
  rcases h with h | h <;> simp [isIdentChar, h]

theorem renderTok_length_pos {t : Tok} (ht : wfTok t = true) :
    0 < (renderTok t).length := by
  cases t with
  | nat n =>
    have := natChars_ne_nil n
    simp only [renderTok]
    cases hnc : natChars n with
    | nil => exact absurd hnc this
    | cons c cs => simp
  | ident s =>
    simp only [wfTok, wfIdent] at ht
    simp only [renderTok]
    cases hs : s.data with
    | nil => rw [hs] at ht; cases ht
    | cons c cs => simp
  | plus => decide
  | minus => decide
  | star => decide
  | slash => decide
  | dstar => decide
  | lpar => decide
  | rpar => decide

theorem lexLoop_step (t : Tok) (rs : List Char) (f : Nat)
    (ht : wfTok t = true)
    (hrs : rs = [] ∨ ∃ R, rs = ' ' :: R) :
    lexLoop (f + 1) (renderTok t ++ rs) =
      (lexLoop f rs).map fun ts => t :: ts := by
  have hrsD : rs = [] ∨ ∃ c cs, rs = c :: cs ∧ c.isDigit = false := by
    rcases hrs with h | ⟨R, h⟩
    · exact Or.inl h
    · exact Or.inr ⟨' ', R, h, by decide⟩
  have hrsI : rs = [] ∨ ∃ c cs, rs = c :: cs ∧ isIdentChar c = false := by
    rcases hrs with h | ⟨R, h⟩
    · exact Or.inl h
    · exact Or.inr ⟨' ', R, h, by decide⟩
  cases t with
  | nat n =>
    obtain ⟨c, cs, hsplit⟩ : ∃ c cs, natChars n = c :: cs := by
      cases hnc : natChars n with
      | nil => exact absurd hnc (natChars_ne_nil n)
      | cons c cs => exact ⟨c, cs, rfl⟩
    have hall : (c :: cs).all Char.isDigit = true := by
      rw [← hsplit]; exact natChars_all_digits n
    have hcd : c.isDigit = true := by
      simp only [List.all_cons, Bool.and_eq_true] at hall
      exact hall.1
    have hc1 : ¬ (c = ' ') := digit_not_space hcd
    have htd : takeDigits ((c :: cs) ++ rs) = (c :: cs, rs) :=
      takeDigits_of_all hall hrsD
    simp only [renderTok, hsplit, List.cons_append, lexLoop, hc1, if_false,
      hcd, if_true]
    rw [show c :: (cs ++ rs) = (c :: cs) ++ rs from rfl, htd]
    have hval : digitsVal (c :: cs) = n := by
      rw [← hsplit]; exact digitsVal_natChars n
    simp [hval]
  | ident s =>
    simp only [wfTok, wfIdent] at ht
    cases hs : s.data with
    | nil => rw [hs] at ht; cases ht
    | cons c cs =>
      rw [hs] at ht
      simp only [Bool.and_eq_true, Bool.not_eq_true', beq_eq_false_iff_ne,
        ne_eq] at ht
      obtain ⟨⟨⟨hstart, hnd⟩, hnsp⟩, hcs⟩ := ht
      have hall : (c :: cs).all isIdentChar = true := by
        simp [List.all_cons, isIdentStart_isIdentChar hstart, hcs]
      have hti : takeIdent ((c :: cs) ++ rs) = (c :: cs, rs) :=
        takeIdent_of_all hall hrsI
      simp only [renderTok, hs, List.cons_append, lexLoop, hnsp, if_false,
        hnd, hstart, if_true]
      rw [show c :: (cs ++ rs) = (c :: cs) ++ rs from rfl, hti]
      have : String.mk (c :: cs) = s := by
        cases s with
        | mk d => simp_all
      simp [this]
  | plus => simp +decide [renderTok, lexLoop]
  | minus => simp +decide [renderTok, lexLoop]
  | star =>
    rcases hrs with h | ⟨R, h⟩ <;> subst h <;> simp +decide [renderTok, lexLoop]
  | slash => simp +decide [renderTok, lexLoop]
  | dstar => simp +decide [renderTok, lexLoop]
  | lpar => simp +decide [renderTok, lexLoop]
  | rpar => simp +decide [renderTok, lexLoop]

theorem lexLoop_render :
    ∀ (ts : List Tok), wfToks ts = true →
      ∀ f, (renderToks ts).length < f → lexLoop f (renderToks ts) = some ts := by
  intro ts
  induction ts with
  | nil =>
    intro _ f hf
    cases f with
    | zero => exact absurd hf (by simp [renderToks])
    | succ f => rfl
  | cons t ts ih =>
    intro hwf f hf
    simp only [wfToks, List.all_cons, Bool.and_eq_true] at hwf
    obtain ⟨ht, hts⟩ := hwf
    cases ts with
    | nil =>
      have hlen : (renderTok t).length < f := by
        simpa [renderToks] using hf
      have hpos := renderTok_length_pos ht
      obtain ⟨f1, rfl⟩ : ∃ g, f = g + 1 := ⟨f - 1, by omega⟩
      rw [show renderToks [t] = renderTok t ++ [] by simp [renderToks]]
      rw [lexLoop_step t [] f1 ht (Or.inl rfl)]
      obtain ⟨f2, rfl⟩ : ∃ g, f1 = g + 1 := ⟨f1 - 1, by omega⟩
      rfl
    | cons t2 ts2 =>
      have hpos := renderTok_length_pos ht
      have hren : renderToks (t :: t2 :: ts2) =
          renderTok t ++ ' ' :: renderToks (t2 :: ts2) := rfl
      rw [hren] at hf ⊢
      simp only [List.length_append, List.length_cons] at hf
      obtain ⟨f1, rfl⟩ : ∃ g, f = g + 1 := ⟨f - 1, by omega⟩
      rw [lexLoop_step t (' ' :: renderToks (t2 :: ts2)) f1 ht
        (Or.inr ⟨renderToks (t2 :: ts2), rfl⟩)]
      obtain ⟨f2, rfl⟩ : ∃ g, f1 = g + 1 := ⟨f1 - 1, by omega⟩
      rw [show lexLoop (f2 + 1) (' ' :: renderToks (t2 :: ts2)) =
          lexLoop f2 (renderToks (t2 :: ts2)) by simp [lexLoop]]
      rw [ih hts f2 (by omega)]
      rfl

/-!
## Parser step equations
-/

theorem pAtom_nat (f : Nat) (n : Nat) (ts : List Tok) :
    pAtom (f + 1) (Tok.nat n :: ts) = some (MExpr.num n, ts) := rfl

theorem pAtom_ident (f : Nat) (s : String) (ts : List Tok) :
    pAtom (f + 1) (Tok.ident s :: ts) = some (MExpr.sym s, ts) := rfl

theorem pAtom_lpar (f : Nat) (ts : List Tok) :
    pAtom (f + 1) (Tok.lpar :: ts) =
      match pSum f ts with
      | some (e, Tok.rpar :: ts') => some (e, ts')
      | _ => none := rfl

theorem pPow_succ (f : Nat) (ts : List Tok) :
    pPow (f + 1) ts =
      match pAtom f ts with
      | some (a, Tok.dstar :: ts') =>
        match pFactor f ts' with
        | some (b, ts'') => some (mkPow a b, ts'')
        | none => none
      | some (a, ts') => some (a, ts')
      | none => none := rfl

theorem pFactor_minus (f : Nat) (ts : List Tok) :
    pFactor (f + 1) (Tok.minus :: ts) =
      match pFactor f ts with
      | some (a, ts') => some (mkMul (MExpr.num (-1)) a, ts')
      | none => none := rfl

theorem pFactor_not_minus (f : Nat) (ts : List Tok)
    (h : ∀ l, ts ≠ Tok.minus :: l) : pFactor (f + 1) ts = pPow f ts := by
  cases ts with
  | nil => rfl
  | cons t l =>
    cases t <;> first | exact absurd rfl (h l) | rfl

theorem pProd_succ (f : Nat) (ts : List Tok) :
    pProd (f + 1) ts =
      match pFactor f ts with
      | some (a, ts') => pProdLoop f a ts'
      | none => none := rfl

theorem pProdLoop_star (f : Nat) (acc : MExpr) (ts : List Tok) :
    pProdLoop (f + 1) acc (Tok.star :: ts) =
      match pFactor f ts with
      | some (b, ts') => pProdLoop f (mkMul acc b) ts'
      | none => none := rfl

theorem pProdLoop_slash (f : Nat) (acc : MExpr) (ts : List Tok) :
    pProdLoop (f + 1) acc (Tok.slash :: ts) =
      match pFactor f ts with
      | some (b, ts') =>
          pProdLoop f (mkMul acc (mkPow b (MExpr.num (-1)))) ts'
      | none => none := rfl

theorem pProdLoop_stop (f : Nat) (acc : MExpr) (ts : List Tok)
    (h1 : ∀ l, ts ≠ Tok.star :: l) (h2 : ∀ l, ts ≠ Tok.slash :: l) :
    pProdLoop (f + 1) acc ts = some (acc, ts) := by
  cases ts with
  | nil => rfl
  | cons t l =>
    cases t <;>
      first
        | exact absurd rfl (h1 l)
        | exact absurd rfl (h2 l)
        | rfl

theorem pSum_succ (f : Nat) (ts : List Tok) :
    pSum (f + 1) ts =
      match pProd f ts with
      | some (a, ts') => pSumLoop f a ts'
      | none => none := rfl

theorem pSumLoop_plus (f : Nat) (acc : MExpr) (ts : List Tok) :
    pSumLoop (f + 1) acc (Tok.plus :: ts) =
      match pProd f ts with
      | some (b, ts') => pSumLoop f (mkAdd acc b) ts'
      | none => none := rfl

theorem pSumLoop_minus (f : Nat) (acc : MExpr) (ts : List Tok) :
    pSumLoop (f + 1) acc (Tok.minus :: ts) =
      match pProd f ts with
      | some (b, ts') =>
          pSumLoop f (mkAdd acc (mkMul (MExpr.num (-1)) b)) ts'
      | none => none := rfl

theorem pSumLoop_stop (f : Nat) (acc : MExpr) (ts : List Tok)
    (h1 : ∀ l, ts ≠ Tok.plus :: l) (h2 : ∀ l, ts ≠ Tok.minus :: l) :
    pSumLoop (f + 1) acc ts = some (acc, ts) := by
  cases ts with
  | nil => rfl
  | cons t l =>
    cases t <;>
      first
        | exact absurd rfl (h1 l)
        | exact absurd rfl (h2 l)
        | rfl

theorem wfToks_cons (t : Tok) (ts : List Tok) :
    wfToks (t :: ts) = (wfTok t && wfToks ts) := rfl

/-- Everything any parser level returns is canonical (no auto-evaluation
rule applies anywhere in it, and its symbols are lexable), and the
leftover tokens stay well formed. -/
theorem parse_canon : ∀ f : Nat,
    (∀ ts e ts', wfToks ts = true → pAtom f ts = some (e, ts') →
      canonB e = true ∧ wfToks ts' = true) ∧
    (∀ ts e ts', wfToks ts = true → pPow f ts = some (e, ts') →
      canonB e = true ∧ wfToks ts' = true) ∧
    (∀ ts e ts', wfToks ts = true → pFactor f ts = some (e, ts') →
      canonB e = true ∧ wfToks ts' = true) ∧
    (∀ ts e ts', wfToks ts = true → pProd f ts = some (e, ts') →
      canonB e = true ∧ wfToks ts' = true) ∧
    (∀ acc ts e ts', canonB acc = true → wfToks ts = true →
      pProdLoop f acc ts = some (e, ts') →
      canonB e = true ∧ wfToks ts' = true) ∧
    (∀ ts e ts', wfToks ts = true → pSum f ts = some (e, ts') →
      canonB e = true ∧ wfToks ts' = true) ∧
    (∀ acc ts e ts', canonB acc = true → wfToks ts = true →
      pSumLoop f acc ts = some (e, ts') →
      canonB e = true ∧ wfToks ts' = true) := by
  intro f
  induction f with
  | zero =>
    refine ⟨?_, ?_, ?_, ?_, ?_, ?_, ?_⟩ <;> intros <;>
      simp_all [pAtom, pPow, pFactor, pProd, pProdLoop, pSum, pSumLoop]
  | succ f ih =>
    obtain ⟨ihA, ihPow, ihF, ihP, ihPL, ihS, ihSL⟩ := ih
    have hA : ∀ ts e ts', wfToks ts = true → pAtom (f + 1) ts = some (e, ts') →
        canonB e = true ∧ wfToks ts' = true := by
      intro ts e ts' hwf h
      cases ts with
      | nil => cases h
      | cons t l =>
        rw [wfToks_cons, Bool.and_eq_true] at hwf
        cases t with
        | nat n =>
          rw [pAtom_nat] at h
          simp only [Option.some.injEq, Prod.mk.injEq] at h
          obtain ⟨rfl, rfl⟩ := h
          exact ⟨rfl, hwf.2⟩
        | ident s =>
          rw [pAtom_ident] at h
          simp only [Option.some.injEq, Prod.mk.injEq] at h
          obtain ⟨rfl, rfl⟩ := h
          exact ⟨hwf.1, hwf.2⟩
        | lpar =>
          rw [pAtom_lpar] at h
          cases hS : pSum f l with
          | none => simp only [hS, reduceCtorEq] at h
          | some p =>
            obtain ⟨e₁, ts₁⟩ := p
            obtain ⟨ce, hw₁⟩ := ihS l e₁ ts₁ hwf.2 hS
            cases ts₁ with
            | nil => simp only [hS, reduceCtorEq] at h
            | cons t₁ l₁ =>
              rw [wfToks_cons, Bool.and_eq_true] at hw₁
              cases t₁ <;>
                simp only [hS, reduceCtorEq, Option.some.injEq, Prod.mk.injEq] at h
              obtain ⟨rfl, rfl⟩ := h
              exact ⟨ce, hw₁.2⟩
        | plus => cases h
        | minus => cases h
        | star => cases h
        | slash => cases h
        | dstar => cases h
        | rpar => cases h
    have hPow : ∀ ts e ts', wfToks ts = true →
        pPow (f + 1) ts = some (e, ts') →
        canonB e = true ∧ wfToks ts' = true := by
      intro ts e ts' hwf h
      rw [pPow_succ] at h
      cases hAt : pAtom f ts with
      | none => simp only [hAt, reduceCtorEq] at h
      | some p =>
        obtain ⟨a, ts₁⟩ := p
        obtain ⟨ca, hw₁⟩ := ihA ts a ts₁ hwf hAt
        cases ts₁ with
        | nil =>
          simp only [hAt, Option.some.injEq, Prod.mk.injEq] at h
          obtain ⟨rfl, rfl⟩ := h
          exact ⟨ca, hw₁⟩
        | cons t₁ l₁ =>
          cases t₁ with
          | dstar =>
            rw [wfToks_cons, Bool.and_eq_true] at hw₁
            cases hF2 : pFactor f l₁ with
            | none => simp only [hAt, hF2, reduceCtorEq] at h
            | some q =>
              obtain ⟨b, ts₂⟩ := q
              obtain ⟨cb, hw₂⟩ := ihF l₁ b ts₂ hw₁.2 hF2
              simp only [hAt, hF2, Option.some.injEq, Prod.mk.injEq] at h
              obtain ⟨rfl, rfl⟩ := h
              exact ⟨mkPow_canon ca cb, hw₂⟩
          | nat n =>
            simp only [hAt, Option.some.injEq, Prod.mk.injEq] at h
            obtain ⟨rfl, rfl⟩ := h
            exact ⟨ca, hw₁⟩
          | ident s =>
            simp only [hAt, Option.some.injEq, Prod.mk.injEq] at h
            obtain ⟨rfl, rfl⟩ := h
            exact ⟨ca, hw₁⟩
          | plus =>
            simp only [hAt, Option.some.injEq, Prod.mk.injEq] at h
            obtain ⟨rfl, rfl⟩ := h
            exact ⟨ca, hw₁⟩
          | minus =>
            simp only [hAt, Option.some.injEq, Prod.mk.injEq] at h
            obtain ⟨rfl, rfl⟩ := h
            exact ⟨ca, hw₁⟩
          | star =>
            simp only [hAt, Option.some.injEq, Prod.mk.injEq] at h
            obtain ⟨rfl, rfl⟩ := h
            exact ⟨ca, hw₁⟩
          | slash =>
            simp only [hAt, Option.some.injEq, Prod.mk.injEq] at h
            obtain ⟨rfl, rfl⟩ := h
            exact ⟨ca, hw₁⟩
          | lpar =>
            simp only [hAt, Option.some.injEq, Prod.mk.injEq] at h
            obtain ⟨rfl, rfl⟩ := h
            exact ⟨ca, hw₁⟩
          | rpar =>
            simp only [hAt, Option.some.injEq, Prod.mk.injEq] at h
            obtain ⟨rfl, rfl⟩ := h
            exact ⟨ca, hw₁⟩
    have hFc : ∀ ts e ts', wfToks ts = true →
        pFactor (f + 1) ts = some (e, ts') →
        canonB e = true ∧ wfToks ts' = true := by
      intro ts e ts' hwf h
      cases ts with
      | nil =>
        rw [pFactor_not_minus _ _ (by intro l' he; simp at he)] at h
        exact ihPow _ _ _ hwf h
      | cons t l =>
        cases t with
        | minus =>
          rw [pFactor_minus] at h
          rw [wfToks_cons, Bool.and_eq_true] at hwf
          cases hFi : pFactor f l with
          | none => simp only [hFi, reduceCtorEq] at h
          | some q =>
            obtain ⟨a, ts₁⟩ := q
            obtain ⟨ca, hw₁⟩ := ihF l a ts₁ hwf.2 hFi
            simp only [hFi, Option.some.injEq, Prod.mk.injEq] at h
            obtain ⟨rfl, rfl⟩ := h
            exact ⟨mkMul_canon rfl ca, hw₁⟩
        | nat n =>
          rw [pFactor_not_minus _ _ (by intro l' he; simp at he)] at h
          exact ihPow _ _ _ hwf h
        | ident s =>
          rw [pFactor_not_minus _ _ (by intro l' he; simp at he)] at h
          exact ihPow _ _ _ hwf h
        | plus =>
          rw [pFactor_not_minus _ _ (by intro l' he; simp at he)] at h
          exact ihPow _ _ _ hwf h
        | star =>
          rw [pFactor_not_minus _ _ (by intro l' he; simp at he)] at h
          exact ihPow _ _ _ hwf h
        | slash =>
          rw [pFactor_not_minus _ _ (by intro l' he; simp at he)] at h
          exact ihPow _ _ _ hwf h
        | dstar =>
          rw [pFactor_not_minus _ _ (by intro l' he; simp at he)] at h
          exact ihPow _ _ _ hwf h
        | lpar =>
          rw [pFactor_not_minus _ _ (by intro l' he; simp at he)] at h
          exact ihPow _ _ _ hwf h
        | rpar =>
          rw [pFactor_not_minus _ _ (by intro l' he; simp at he)] at h
          exact ihPow _ _ _ hwf h
    have hPL : ∀ acc ts e ts', canonB acc = true → wfToks ts = true →
        pProdLoop (f + 1) acc ts = some (e, ts') →
        canonB e = true ∧ wfToks ts' = true := by
      intro acc ts e ts' hacc hwf h
      cases ts with
      | nil =>
        rw [pProdLoop_stop _ _ _ (by intro l' he; simp at he)
          (by intro l' he; simp at he)] at h
        simp only [Option.some.injEq, Prod.mk.injEq] at h
        obtain ⟨rfl, rfl⟩ := h
        exact ⟨hacc, hwf⟩
      | cons t l =>
        cases t with
        | star =>
          rw [pProdLoop_star] at h
          rw [wfToks_cons, Bool.and_eq_true] at hwf
          cases hFi : pFactor f l with
          | none => simp only [hFi, reduceCtorEq] at h
          | some q =>
            obtain ⟨b, ts₁⟩ := q
            simp only [hFi, reduceCtorEq] at h
            obtain ⟨cb, hw₁⟩ := ihF l b ts₁ hwf.2 hFi
            exact ihPL (mkMul acc b) ts₁ e ts' (mkMul_canon hacc cb) hw₁ h
        | slash =>
          rw [pProdLoop_slash] at h
          rw [wfToks_cons, Bool.and_eq_true] at hwf
          cases hFi : pFactor f l with
          | none => simp only [hFi, reduceCtorEq] at h
          | some q =>
            obtain ⟨b, ts₁⟩ := q
            simp only [hFi, reduceCtorEq] at h
            obtain ⟨cb, hw₁⟩ := ihF l b ts₁ hwf.2 hFi
            exact ihPL _ ts₁ e ts'
              (mkMul_canon hacc (mkPow_canon cb (rfl : canonB (MExpr.num (-1)) = true))) hw₁ h
        | nat n =>
          rw [pProdLoop_stop _ _ _ (by intro l' he; simp at he)
            (by intro l' he; simp at he)] at h
          simp only [Option.some.injEq, Prod.mk.injEq] at h
          obtain ⟨rfl, rfl⟩ := h
          exact ⟨hacc, hwf⟩
        | ident s =>
          rw [pProdLoop_stop _ _ _ (by intro l' he; simp at he)
            (by intro l' he; simp at he)] at h
          simp only [Option.some.injEq, Prod.mk.injEq] at h
          obtain ⟨rfl, rfl⟩ := h
          exact ⟨hacc, hwf⟩
        | plus =>
          rw [pProdLoop_stop _ _ _ (by intro l' he; simp at he)
            (by intro l' he; simp at he)] at h
          simp only [Option.some.injEq, Prod.mk.injEq] at h
          obtain ⟨rfl, rfl⟩ := h
          exact ⟨hacc, hwf⟩
        | minus =>
          rw [pProdLoop_stop _ _ _ (by intro l' he; simp at he)
            (by intro l' he; simp at he)] at h
          simp only [Option.some.injEq, Prod.mk.injEq] at h
          obtain ⟨rfl, rfl⟩ := h
          exact ⟨hacc, hwf⟩
        | dstar =>
          rw [pProdLoop_stop _ _ _ (by intro l' he; simp at he)
            (by intro l' he; simp at he)] at h
          simp only [Option.some.injEq, Prod.mk.injEq] at h
          obtain ⟨rfl, rfl⟩ := h
          exact ⟨hacc, hwf⟩
        | lpar =>
          rw [pProdLoop_stop _ _ _ (by intro l' he; simp at he)
            (by intro l' he; simp at he)] at h
          simp only [Option.some.injEq, Prod.mk.injEq] at h
          obtain ⟨rfl, rfl⟩ := h
          exact ⟨hacc, hwf⟩
        | rpar =>
          rw [pProdLoop_stop _ _ _ (by intro l' he; simp at he)
            (by intro l' he; simp at he)] at h
          simp only [Option.some.injEq, Prod.mk.injEq] at h
          obtain ⟨rfl, rfl⟩ := h
          exact ⟨hacc, hwf⟩
    have hPc : ∀ ts e ts', wfToks ts = true →
        pProd (f + 1) ts = some (e, ts') →
        canonB e = true ∧ wfToks ts' = true := by
      intro ts e ts' hwf h
      rw [pProd_succ] at h
      cases hFi : pFactor f ts with
      | none => simp only [hFi, reduceCtorEq] at h
      | some q =>
        obtain ⟨a, ts₁⟩ := q
        simp only [hFi, reduceCtorEq] at h
        obtain ⟨ca, hw₁⟩ := ihF ts a ts₁ hwf hFi
        exact ihPL a ts₁ e ts' ca hw₁ h
    have hSL : ∀ acc ts e ts', canonB acc = true → wfToks ts = true →
        pSumLoop (f + 1) acc ts = some (e, ts') →
        canonB e = true ∧ wfToks ts' = true := by
      intro acc ts e ts' hacc hwf h
      cases ts with
      | nil =>
        rw [pSumLoop_stop _ _ _ (by intro l' he; simp at he)
          (by intro l' he; simp at he)] at h
        simp only [Option.some.injEq, Prod.mk.injEq] at h
        obtain ⟨rfl, rfl⟩ := h
        exact ⟨hacc, hwf⟩
      | cons t l =>
        cases t with
        | plus =>
          rw [pSumLoop_plus] at h
          rw [wfToks_cons, Bool.and_eq_true] at hwf
          cases hPi : pProd f l with
          | none => simp only [hPi, reduceCtorEq] at h
          | some q =>
            obtain ⟨b, ts₁⟩ := q
            simp only [hPi, reduceCtorEq] at h
            obtain ⟨cb, hw₁⟩ := ihP l b ts₁ hwf.2 hPi
            exact ihSL (mkAdd acc b) ts₁ e ts' (mkAdd_canon hacc cb) hw₁ h
        | minus =>
          rw [pSumLoop_minus] at h
          rw [wfToks_cons, Bool.and_eq_true] at hwf
          cases hPi : pProd f l with
          | none => simp only [hPi, reduceCtorEq] at h
          | some q =>
            obtain ⟨b, ts₁⟩ := q
            simp only [hPi, reduceCtorEq] at h
            obtain ⟨cb, hw₁⟩ := ihP l b ts₁ hwf.2 hPi
            exact ihSL _ ts₁ e ts'
              (mkAdd_canon hacc (mkMul_canon (rfl : canonB (MExpr.num (-1)) = true) cb)) hw₁ h
        | nat n =>
          rw [pSumLoop_stop _ _ _ (by intro l' he; simp at he)
            (by intro l' he; simp at he)] at h
          simp only [Option.some.injEq, Prod.mk.injEq] at h
          obtain ⟨rfl, rfl⟩ := h
          exact ⟨hacc, hwf⟩
        | ident s =>
          rw [pSumLoop_stop _ _ _ (by intro l' he; simp at he)
            (by intro l' he; simp at he)] at h
          simp only [Option.some.injEq, Prod.mk.injEq] at h
          obtain ⟨rfl, rfl⟩ := h
          exact ⟨hacc, hwf⟩
        | star =>
          rw [pSumLoop_stop _ _ _ (by intro l' he; simp at he)
            (by intro l' he; simp at he)] at h
          simp only [Option.some.injEq, Prod.mk.injEq] at h
          obtain ⟨rfl, rfl⟩ := h
          exact ⟨hacc, hwf⟩
        | slash =>
          rw [pSumLoop_stop _ _ _ (by intro l' he; simp at he)
            (by intro l' he; simp at he)] at h
          simp only [Option.some.injEq, Prod.mk.injEq] at h
          obtain ⟨rfl, rfl⟩ := h
          exact ⟨hacc, hwf⟩
        | dstar =>
          rw [pSumLoop_stop _ _ _ (by intro l' he; simp at he)
            (by intro l' he; simp at he)] at h
          simp only [Option.some.injEq, Prod.mk.injEq] at h
          obtain ⟨rfl, rfl⟩ := h
          exact ⟨hacc, hwf⟩
        | lpar =>
          rw [pSumLoop_stop _ _ _ (by intro l' he; simp at he)
            (by intro l' he; simp at he)] at h
          simp only [Option.some.injEq, Prod.mk.injEq] at h
          obtain ⟨rfl, rfl⟩ := h
          exact ⟨hacc, hwf⟩
        | rpar =>
          rw [pSumLoop_stop _ _ _ (by intro l' he; simp at he)
            (by intro l' he; simp at he)] at h
          simp only [Option.some.injEq, Prod.mk.injEq] at h
          obtain ⟨rfl, rfl⟩ := h
          exact ⟨hacc, hwf⟩
    have hSc : ∀ ts e ts', wfToks ts = true →
        pSum (f + 1) ts = some (e, ts') →
        canonB e = true ∧ wfToks ts' = true := by
      intro ts e ts' hwf h
      rw [pSum_succ] at h
      cases hPi : pProd f ts with
      | none => simp only [hPi, reduceCtorEq] at h
      | some q =>
        obtain ⟨a, ts₁⟩ := q
        simp only [hPi, reduceCtorEq] at h
        obtain ⟨ca, hw₁⟩ := ihP ts a ts₁ hwf hPi
        exact ihSL a ts₁ e ts' ca hw₁ h
    exact ⟨hA, hPow, hFc, hPc, hPL, hSc, hSL⟩

theorem takeIdent_all : ∀ l : List Char,
    ((takeIdent l).1).all isIdentChar = true := by
  intro l
  induction l with
  | nil => rfl
  | cons c cs ih =>
    by_cases hc : isIdentChar c = true
    · simp [takeIdent, hc, ih]
    · simp [takeIdent, hc]

theorem takeIdent_cons_of_identChar {c : Char} (cs : List Char)
    (hc : isIdentChar c = true) :
    takeIdent (c :: cs) = (c :: (takeIdent cs).1, (takeIdent cs).2) := by
  simp [takeIdent, hc]

theorem lexLoop_wfToks : ∀ f cs ts, lexLoop f cs = some ts →
    wfToks ts = true := by
  intro f
  induction f with
  | zero => intro cs ts h; cases h
  | succ f ih =>
    intro cs ts h
    cases cs with
    | nil => cases h; rfl
    | cons c cs =>
      simp only [lexLoop] at h
      split_ifs at h with h1 h2 h3 h4 h5 h6 h7 h8 h9
      · exact ih _ _ h
      · rcases htd : takeDigits (c :: cs) with ⟨ds, r⟩
        rw [htd] at h
        cases hl : lexLoop f r with
        | none => rw [hl] at h; cases h
        | some ts' =>
          rw [hl] at h
          cases h
          rw [wfToks_cons]
          simp [wfTok, ih _ _ hl]
      · rw [takeIdent_cons_of_identChar cs (isIdentStart_isIdentChar h3)] at h
        cases hl : lexLoop f (takeIdent cs).2 with
        | none => rw [hl] at h; cases h
        | some ts' =>
          rw [hl] at h
          cases h
          rw [wfToks_cons]
          have hwfi : wfIdent (String.mk (c :: (takeIdent cs).1)) = true := by
            simp only [wfIdent, h3, Bool.true_and, Bool.and_eq_true,
              Bool.not_eq_true']
            refine ⟨⟨?_, ?_⟩, takeIdent_all cs⟩
            · exact Bool.eq_false_iff.mpr h2
            · exact beq_eq_false_iff_ne.mpr h1
          simp [wfTok, hwfi, ih _ _ hl]
      · cases hl : lexLoop f cs with
        | none => rw [hl] at h; cases h
        | some ts' =>
          rw [hl] at h
          cases h
          rw [wfToks_cons]
          simp [wfTok, ih _ _ hl]
      · cases hl : lexLoop f cs with
        | none => rw [hl] at h; cases h
        | some ts' =>
          rw [hl] at h
          cases h
          rw [wfToks_cons]
          simp [wfTok, ih _ _ hl]
      · split at h
        · cases hl : lexLoop f _ with
          | none => rw [hl] at h; cases h
          | some ts' =>
            rw [hl] at h
            cases h
            rw [wfToks_cons]
            simp [wfTok, ih _ _ hl]
        · cases hl : lexLoop f cs with
          | none => rw [hl] at h; cases h
          | some ts' =>
            rw [hl] at h
            cases h
            rw [wfToks_cons]
            simp [wfTok, ih _ _ hl]
      · cases hl : lexLoop f cs with
        | none => rw [hl] at h; cases h
        | some ts' =>
          rw [hl] at h
          cases h
          rw [wfToks_cons]
          simp [wfTok, ih _ _ hl]
      · cases hl : lexLoop f cs with
        | none => rw [hl] at h; cases h
        | some ts' =>
          rw [hl] at h
          cases h
          rw [wfToks_cons]
          simp [wfTok, ih _ _ hl]
      · cases hl : lexLoop f cs with
        | none => rw [hl] at h; cases h
        | some ts' =>
          rw [hl] at h
          cases h
          rw [wfToks_cons]
          simp [wfTok, ih _ _ hl]

/-- Whatever the model `sympify` returns is canonical. -/
theorem msympify_canon {s : String} {e : MExpr} (h : msympify s = .ok e) :
    canonB e = true := by
  unfold msympify at h
  cases hl : lexLoop (s.data.length + 1) s.data with
  | none => rw [hl] at h; cases h
  | some ts =>
    simp only [hl] at h
    cases hp : pSum (8 * ts.length + 16) ts with
    | none => simp only [hp, reduceCtorEq] at h
    | some p =>
      obtain ⟨e₁, ts₁⟩ := p
      simp only [hp] at h
      cases ts₁ with
      | nil =>
        cases h
        exact ((parse_canon _).2.2.2.2.2.1 ts e []
          (lexLoop_wfToks _ _ _ hl) hp).1
      | cons t l => cases h

/-!
## Printer facts and the print–parse round trip
-/

theorem printToks_not_minus (t : MExpr) (r : List Tok) :
    ∀ l, printToks t ++ r ≠ Tok.minus :: l := by
  intro l he
  cases t with
  | num q =>
    unfold printToks printNum at he
    split_ifs at he <;> simp at he
  | sym s => simp [printToks] at he
  | add a b => simp [printToks] at he
  | mul a b => simp [printToks] at he
  | pow a b => simp [printToks] at he

theorem num_cast_eq_self {q : ℚ} (hd : q.den = 1) : ((q.num : ℚ)) = q := by
  have h := Rat.num_div_den q
  rw [hd] at h
  simpa using h

theorem natAbs_cast_of_nonneg {q : ℚ} (hn : 0 ≤ q.num) :
    ((q.num.natAbs : ℚ)) = ((q.num : ℚ)) := by
  rw [← Int.cast_natCast (R := ℚ), Int.natAbs_of_nonneg hn]

theorem natAbs_cast_of_neg {q : ℚ} (hn : q.num < 0) :
    ((q.num.natAbs : ℚ)) = -((q.num : ℚ)) := by
  rw [← Int.cast_natCast (R := ℚ), Int.ofNat_natAbs_of_nonpos (le_of_lt hn),
    Int.cast_neg]

theorem den_cast_ne_zero (q : ℚ) : ((q.den : ℚ)) ≠ 0 := by
  have := q.den_nz
  exact_mod_cast this

theorem pFactor_of_atom (x : MExpr) (X : List Tok) (F : Nat)
    (hnm : ∀ l, printToks x ++ X ≠ Tok.minus :: l)
    (hstopd : ∀ l, X ≠ Tok.dstar :: l)
    (hatom : ∀ g, F ≤ g → pAtom g (printToks x ++ X) = some (x, X)) :
    ∀ f, F + 2 ≤ f → pFactor f (printToks x ++ X) = some (x, X) := by
  intro f hf
  obtain ⟨f₁, rfl⟩ : ∃ g, f = g + 1 := ⟨f - 1, by omega⟩
  rw [pFactor_not_minus _ _ hnm]
  obtain ⟨f₂, rfl⟩ : ∃ g, f₁ = g + 1 := ⟨f₁ - 1, by omega⟩
  rw [pPow_succ, hatom f₂ (by omega)]
  cases X with
  | nil => rfl
  | cons t l =>
    cases t <;> first | exact absurd rfl (hstopd l) | rfl

theorem pProd_of_atom (x : MExpr) (X : List Tok) (F : Nat)
    (hnm : ∀ l, printToks x ++ X ≠ Tok.minus :: l)
    (hstopd : ∀ l, X ≠ Tok.dstar :: l)
    (hstop1 : ∀ l, X ≠ Tok.star :: l)
    (hstop2 : ∀ l, X ≠ Tok.slash :: l)
    (hatom : ∀ g, F ≤ g → pAtom g (printToks x ++ X) = some (x, X)) :
    ∀ f, F + 4 ≤ f → pProd f (printToks x ++ X) = some (x, X) := by
  intro f hf
  obtain ⟨f₁, rfl⟩ : ∃ g, f = g + 1 := ⟨f - 1, by omega⟩
  rw [pProd_succ, pFactor_of_atom x X F hnm hstopd hatom f₁ (by omega)]
  show pProdLoop f₁ x X = some (x, X)
  obtain ⟨f₂, rfl⟩ : ∃ g, f₁ = g + 1 := ⟨f₁ - 1, by omega⟩
  exact pProdLoop_stop _ _ _ hstop1 hstop2

theorem parse_neg_int (m : Nat) (rest : List Tok) (f : Nat) :
    pAtom (f + 7) (Tok.lpar :: Tok.minus :: Tok.nat m :: Tok.rpar :: rest) =
      some (mkMul (MExpr.num (-1)) (MExpr.num m), rest) := rfl

theorem parse_pos_rat (m d : Nat) (rest : List Tok) (f : Nat) :
    pAtom (f + 7)
      (Tok.lpar :: Tok.nat m :: Tok.slash :: Tok.nat d :: Tok.rpar :: rest) =
      some (mkMul (MExpr.num m) (mkPow (MExpr.num d) (MExpr.num (-1))),
        rest) := rfl

theorem parse_neg_rat (m d : Nat) (rest : List Tok) (f : Nat) :
    pAtom (f + 8) (Tok.lpar :: Tok.minus :: Tok.nat m :: Tok.slash ::
      Tok.nat d :: Tok.rpar :: rest) =
      some (mkMul (mkMul (MExpr.num (-1)) (MExpr.num m))
        (mkPow (MExpr.num d) (MExpr.num (-1))), rest) := rfl

theorem wfToks_append (l₁ l₂ : List Tok) :
    wfToks (l₁ ++ l₂) = (wfToks l₁ && wfToks l₂) := List.all_append

theorem printToks_wf : ∀ {t : MExpr}, canonB t = true →
    wfToks (printToks t) = true := by
  intro t
  induction t with
  | num q =>
    intro _
    unfold printToks printNum
    split_ifs <;> rfl
  | sym s =>
    intro hc
    simp only [canonB] at hc
    simp [printToks, wfToks, wfTok, hc]
  | add a b iha ihb =>
    intro hc
    simp only [canonB, Bool.and_eq_true] at hc
    have ha := iha hc.1.1.1.1
    have hb := ihb hc.1.1.1.2
    show wfToks (Tok.lpar ::
      (printToks a ++ Tok.plus :: (printToks b ++ [Tok.rpar]))) = true
    rw [wfToks_cons, wfToks_append, wfToks_cons, wfToks_append, ha, hb]
    rfl
  | mul a b iha ihb =>
    intro hc
    simp only [canonB, Bool.and_eq_true] at hc
    have ha := iha hc.1.1.1.1.1.1
    have hb := ihb hc.1.1.1.1.1.2
    show wfToks (Tok.lpar ::
      (printToks a ++ Tok.star :: (printToks b ++ [Tok.rpar]))) = true
    rw [wfToks_cons, wfToks_append, wfToks_cons, wfToks_append, ha, hb]
    rfl
  | pow a b iha ihb =>
    intro hc
    simp only [canonB, Bool.and_eq_true] at hc
    have ha := iha hc.1.1.1.1
    have hb := ihb hc.1.1.1.2
    show wfToks (Tok.lpar ::
      (printToks a ++ Tok.dstar :: (printToks b ++ [Tok.rpar]))) = true
    rw [wfToks_cons, wfToks_append, wfToks_cons, wfToks_append, ha, hb]
    rfl

theorem esize_le_printToks : ∀ t : MExpr, esize t ≤ (printToks t).length := by
  intro t
  induction t with
  | num q =>
    unfold printToks printNum
    split_ifs <;> simp [esize]
  | sym s => simp [printToks, esize]
  | add a b iha ihb =>
    simp only [printToks, esize, List.length_cons, List.length_append]
    omega
  | mul a b iha ihb =>
    simp only [printToks, esize, List.length_cons, List.length_append]
    omega
  | pow a b iha ihb =>
    simp only [printToks, esize, List.length_cons, List.length_append]
    omega

/-- Parsing the printed form of a canonical expression, at atom level,
recovers the expression exactly and consumes exactly its tokens. -/
theorem print_parse : ∀ t : MExpr, canonB t = true →
    ∀ (rest : List Tok) (f : Nat), 8 * esize t + 8 ≤ f →
      pAtom f (printToks t ++ rest) = some (t, rest) := by
  intro t
  induction t with
  | num q =>
    intro _ rest f hf
    by_cases hden : q.den = 1
    · by_cases hneg : q.num < 0
      · rw [show printToks (MExpr.num q) ++ rest =
            Tok.lpar :: Tok.minus :: Tok.nat q.num.natAbs :: Tok.rpar :: rest
            by simp [printToks, printNum, hden, hneg]]
        obtain ⟨f₁, rfl⟩ : ∃ g, f = g + 7 := ⟨f - 7, by omega⟩
        rw [parse_neg_int]
        show some (MExpr.num ((-1) * (q.num.natAbs : ℚ)), rest) =
          some (MExpr.num q, rest)
        have hv : ((-1 : ℚ)) * (q.num.natAbs : ℚ) = q := by
          rw [natAbs_cast_of_neg hneg]
          rw [show ((-1 : ℚ)) * -((q.num : ℚ)) = ((q.num : ℚ)) by ring]
          exact num_cast_eq_self hden
        rw [hv]
      · rw [show printToks (MExpr.num q) ++ rest =
            Tok.nat q.num.natAbs :: rest
            by simp [printToks, printNum, hden, hneg]]
        obtain ⟨f₁, rfl⟩ : ∃ g, f = g + 1 := ⟨f - 1, by omega⟩
        rw [pAtom_nat]
        have hv : ((q.num.natAbs : ℚ)) = q := by
          rw [natAbs_cast_of_nonneg (le_of_not_lt hneg)]
          exact num_cast_eq_self hden
        rw [hv]
    · have hfold : powFoldB ((q.den : ℚ)) (-1) = true := by
        simp [powFoldB, den_cast_ne_zero q]
      have hpowval : mkPow (MExpr.num ((q.den : ℚ))) (MExpr.num (-1)) =
          MExpr.num (((q.den : ℚ)) ^ ((-1 : ℚ)).num) := by
        simp [mkPow, hfold]
      by_cases hneg : q.num < 0
      · rw [show printToks (MExpr.num q) ++ rest =
            Tok.lpar :: Tok.minus :: Tok.nat q.num.natAbs :: Tok.slash ::
              Tok.nat q.den :: Tok.rpar :: rest
            by simp [printToks, printNum, hden, hneg]]
        obtain ⟨f₁, rfl⟩ : ∃ g, f = g + 8 := ⟨f - 8, by omega⟩
        rw [parse_neg_rat]
        show some (mkMul (MExpr.num ((-1) * (q.num.natAbs : ℚ)))
          (mkPow (MExpr.num ((q.den : ℚ))) (MExpr.num (-1))), rest) =
          some (MExpr.num q, rest)
        rw [hpowval]
        show some (MExpr.num ((-1) * (q.num.natAbs : ℚ) *
          ((q.den : ℚ)) ^ ((-1 : ℚ)).num), rest) = some (MExpr.num q, rest)
        have hv : ((-1 : ℚ)) * (q.num.natAbs : ℚ) *
            ((q.den : ℚ)) ^ ((-1 : ℚ)).num = q := by
          rw [show ((-1 : ℚ)).num = -1 by rfl, natAbs_cast_of_neg hneg]
          rw [zpow_neg, zpow_one]
          rw [show ((-1 : ℚ)) * -((q.num : ℚ)) * ((q.den : ℚ))⁻¹ =
            ((q.num : ℚ)) / ((q.den : ℚ)) by ring]
          exact Rat.num_div_den q
        rw [hv]
      · rw [show printToks (MExpr.num q) ++ rest =
            Tok.lpar :: Tok.nat q.num.natAbs :: Tok.slash ::
              Tok.nat q.den :: Tok.rpar :: rest
            by simp [printToks, printNum, hden, hneg]]
        obtain ⟨f₁, rfl⟩ : ∃ g, f = g + 7 := ⟨f - 7, by omega⟩
        rw [parse_pos_rat]
        show some (mkMul (MExpr.num ((q.num.natAbs : ℚ)))
          (mkPow (MExpr.num ((q.den : ℚ))) (MExpr.num (-1))), rest) =
          some (MExpr.num q, rest)
        rw [hpowval]
        show some (MExpr.num ((q.num.natAbs : ℚ) *
          ((q.den : ℚ)) ^ ((-1 : ℚ)).num), rest) = some (MExpr.num q, rest)
        have hv : (q.num.natAbs : ℚ) * ((q.den : ℚ)) ^ ((-1 : ℚ)).num = q := by
          rw [show ((-1 : ℚ)).num = -1 by rfl,
            natAbs_cast_of_nonneg (le_of_not_lt hneg)]
          rw [zpow_neg, zpow_one, ← div_eq_mul_inv]
          exact Rat.num_div_den q
        rw [hv]
  | sym s =>
    intro _ rest f hf
    obtain ⟨f₁, rfl⟩ : ∃ g, f = g + 1 := ⟨f - 1, by omega⟩
    exact pAtom_ident f₁ s rest
  | add a b iha ihb =>
    intro hc rest f hf
    have h' := hc
    simp only [canonB, Bool.and_eq_true] at h'
    have hca := h'.1.1.1.1
    have hcb := h'.1.1.1.2
    simp only [esize] at hf
    rw [show printToks (MExpr.add a b) ++ rest =
        Tok.lpar :: (printToks a ++
          (Tok.plus :: (printToks b ++ (Tok.rpar :: rest))))
        by simp [printToks]]
    obtain ⟨f₁, rfl⟩ : ∃ g, f = g + 1 := ⟨f - 1, by omega⟩
    rw [pAtom_lpar]
    have hsum : pSum f₁ (printToks a ++
        (Tok.plus :: (printToks b ++ (Tok.rpar :: rest)))) =
        some (mkAdd a b, Tok.rpar :: rest) := by
      obtain ⟨f₂, rfl⟩ : ∃ g, f₁ = g + 1 := ⟨f₁ - 1, by omega⟩
      rw [pSum_succ]
      rw [pProd_of_atom a _ (8 * esize a + 8) (printToks_not_minus a _)
        (by intro l he; simp at he) (by intro l he; simp at he)
        (by intro l he; simp at he)
        (fun g hg => iha hca _ g hg) f₂ (by omega)]
      show pSumLoop f₂ a
        (Tok.plus :: (printToks b ++ (Tok.rpar :: rest))) =
        some (mkAdd a b, Tok.rpar :: rest)
      obtain ⟨f₃, rfl⟩ : ∃ g, f₂ = g + 1 := ⟨f₂ - 1, by omega⟩
      rw [pSumLoop_plus]
      rw [pProd_of_atom b _ (8 * esize b + 8) (printToks_not_minus b _)
        (by intro l he; simp at he) (by intro l he; simp at he)
        (by intro l he; simp at he)
        (fun g hg => ihb hcb _ g hg) f₃ (by omega)]
      show pSumLoop f₃ (mkAdd a b) (Tok.rpar :: rest) =
        some (mkAdd a b, Tok.rpar :: rest)
      obtain ⟨f₄, rfl⟩ : ∃ g, f₃ = g + 1 := ⟨f₃ - 1, by omega⟩
      exact pSumLoop_stop _ _ _ (by intro l he; simp at he)
        (by intro l he; simp at he)
    rw [hsum]
    show some (mkAdd a b, rest) = some (MExpr.add a b, rest)
    rw [mkAdd_of_canon hc]
  | mul a b iha ihb =>
    intro hc rest f hf
    have h' := hc
    simp only [canonB, Bool.and_eq_true] at h'
    have hca := h'.1.1.1.1.1.1
    have hcb := h'.1.1.1.1.1.2
    simp only [esize] at hf
    rw [show printToks (MExpr.mul a b) ++ rest =
        Tok.lpar :: (printToks a ++
          (Tok.star :: (printToks b ++ (Tok.rpar :: rest))))
        by simp [printToks]]
    obtain ⟨f₁, rfl⟩ : ∃ g, f = g + 1 := ⟨f - 1, by omega⟩
    rw [pAtom_lpar]
    have hsum : pSum f₁ (printToks a ++
        (Tok.star :: (printToks b ++ (Tok.rpar :: rest)))) =
        some (mkMul a b, Tok.rpar :: rest) := by
      obtain ⟨f₂, rfl⟩ : ∃ g, f₁ = g + 1 := ⟨f₁ - 1, by omega⟩
      rw [pSum_succ]
      have hprod : pProd f₂ (printToks a ++
          (Tok.star :: (printToks b ++ (Tok.rpar :: rest)))) =
          some (mkMul a b, Tok.rpar :: rest) := by
        obtain ⟨f₃, rfl⟩ : ∃ g, f₂ = g + 1 := ⟨f₂ - 1, by omega⟩
        rw [pProd_succ]
        rw [pFactor_of_atom a _ (8 * esize a + 8) (printToks_not_minus a _)
          (by intro l he; simp at he)
          (fun g hg => iha hca _ g hg) f₃ (by omega)]
        show pProdLoop f₃ a
          (Tok.star :: (printToks b ++ (Tok.rpar :: rest))) =
          some (mkMul a b, Tok.rpar :: rest)
        obtain ⟨f₄, rfl⟩ : ∃ g, f₃ = g + 1 := ⟨f₃ - 1, by omega⟩
        rw [pProdLoop_star]
        rw [pFactor_of_atom b _ (8 * esize b + 8) (printToks_not_minus b _)
          (by intro l he; simp at he)
          (fun g hg => ihb hcb _ g hg) f₄ (by omega)]
        show pProdLoop f₄ (mkMul a b) (Tok.rpar :: rest) =
          some (mkMul a b, Tok.rpar :: rest)
        obtain ⟨f₅, rfl⟩ : ∃ g, f₄ = g + 1 := ⟨f₄ - 1, by omega⟩
        exact pProdLoop_stop _ _ _ (by intro l he; simp at he)
          (by intro l he; simp at he)
      rw [hprod]
      show pSumLoop f₂ (mkMul a b) (Tok.rpar :: rest) =
        some (mkMul a b, Tok.rpar :: rest)
      obtain ⟨f₃, rfl⟩ : ∃ g, f₂ = g + 1 := ⟨f₂ - 1, by omega⟩
      exact pSumLoop_stop _ _ _ (by intro l he; simp at he)
        (by intro l he; simp at he)
    rw [hsum]
    show some (mkMul a b, rest) = some (MExpr.mul a b, rest)
    rw [mkMul_of_canon hc]
  | pow a b iha ihb =>
    intro hc rest f hf
    have h' := hc
    simp only [canonB, Bool.and_eq_true] at h'
    have hca := h'.1.1.1.1
    have hcb := h'.1.1.1.2
    simp only [esize] at hf
    rw [show printToks (MExpr.pow a b) ++ rest =
        Tok.lpar :: (printToks a ++
          (Tok.dstar :: (printToks b ++ (Tok.rpar :: rest))))
        by simp [printToks]]
    obtain ⟨f₁, rfl⟩ : ∃ g, f = g + 1 := ⟨f - 1, by omega⟩
    rw [pAtom_lpar]
    have hsum : pSum f₁ (printToks a ++
        (Tok.dstar :: (printToks b ++ (Tok.rpar :: rest)))) =
        some (mkPow a b, Tok.rpar :: rest) := by
      obtain ⟨f₂, rfl⟩ : ∃ g, f₁ = g + 1 := ⟨f₁ - 1, by omega⟩
      rw [pSum_succ]
      have hprod : pProd f₂ (printToks a ++
          (Tok.dstar :: (printToks b ++ (Tok.rpar :: rest)))) =
          some (mkPow a b, Tok.rpar :: rest) := by
        obtain ⟨f₃, rfl⟩ : ∃ g, f₂ = g + 1 := ⟨f₂ - 1, by omega⟩
        rw [pProd_succ]
        have hfac : pFactor f₃ (printToks a ++
            (Tok.dstar :: (printToks b ++ (Tok.rpar :: rest)))) =
            some (mkPow a b, Tok.rpar :: rest) := by
          obtain ⟨f₄, rfl⟩ : ∃ g, f₃ = g + 1 := ⟨f₃ - 1, by omega⟩
          rw [pFactor_not_minus _ _ (printToks_not_minus a _)]
          obtain ⟨f₅, rfl⟩ : ∃ g, f₄ = g + 1 := ⟨f₄ - 1, by omega⟩
          rw [pPow_succ]
          rw [iha hca (Tok.dstar :: (printToks b ++ (Tok.rpar :: rest)))
            f₅ (by omega)]
          show (match pFactor f₅ (printToks b ++ (Tok.rpar :: rest)) with
            | some (b', ts'') => some (mkPow a b', ts'')
            | none => none) = some (mkPow a b, Tok.rpar :: rest)
          rw [pFactor_of_atom b _ (8 * esize b + 8) (printToks_not_minus b _)
            (by intro l he; simp at he)
            (fun g hg => ihb hcb _ g hg) f₅ (by omega)]
        rw [hfac]
        show pProdLoop f₃ (mkPow a b) (Tok.rpar :: rest) =
          some (mkPow a b, Tok.rpar :: rest)
        obtain ⟨f₄, rfl⟩ : ∃ g, f₃ = g + 1 := ⟨f₃ - 1, by omega⟩
        exact pProdLoop_stop _ _ _ (by intro l he; simp at he)
          (by intro l he; simp at he)
      rw [hprod]
      show pSumLoop f₂ (mkPow a b) (Tok.rpar :: rest) =
        some (mkPow a b, Tok.rpar :: rest)
      obtain ⟨f₃, rfl⟩ : ∃ g, f₂ = g + 1 := ⟨f₂ - 1, by omega⟩
      exact pSumLoop_stop _ _ _ (by intro l he; simp at he)
        (by intro l he; simp at he)
    rw [hsum]
    show some (mkPow a b, rest) = some (MExpr.pow a b, rest)
    rw [mkPow_of_canon hc]

/-- The model round trip: re-parsing the printed string of a canonical
expression gives it back. -/
theorem msympify_mstr {t : MExpr} (hc : canonB t = true) :
    msympify (mstr t) = .ok t := by
  unfold msympify mstr
  rw [show (String.mk (renderToks (printToks t))).data =
    renderToks (printToks t) from rfl]
  rw [lexLoop_render (printToks t) (printToks_wf hc) _ (Nat.lt_succ_self _)]
  have hlen := esize_le_printToks t
  have htop : pSum (8 * (printToks t).length + 16) (printToks t) =
      some (t, []) := by
    obtain ⟨f₁, hf₁⟩ : ∃ g, 8 * (printToks t).length + 16 = g + 1 :=
      ⟨8 * (printToks t).length + 15, by omega⟩
    rw [hf₁, pSum_succ]
    rw [show printToks t = printToks t ++ [] by simp]
    rw [pProd_of_atom t _ (8 * esize t + 8) (printToks_not_minus t _)
      (by intro l he; simp at he) (by intro l he; simp at he)
      (by intro l he; simp at he)
      (fun g hg => print_parse t hc [] g hg) f₁ (by omega)]
    show pSumLoop f₁ t [] = some (t, [])
    obtain ⟨f₂, rfl⟩ : ∃ g, f₁ = g + 1 := ⟨f₁ - 1, by omega⟩
    exact pSumLoop_stop _ _ _ (by intro l he; simp at he)
      (by intro l he; simp at he)
  show (match pSum (8 * (printToks t).length + 16) (printToks t) with
    | some (e, []) => (Except.ok e : Except SymErr MExpr)
    | _ => Except.error SymErr.sympifyError) = Except.ok t
  rw [htop]

/-!
## Control-flow facts about the five operations, over any engine

Path-equation lemmas first: each fixes the results of the engine calls a
path makes and gives the operation's value on that path.
-/

section ControlFlow

variable {σ ν ord pt : Type} {E : Engine σ ν ord pt}

theorem safe_sympifyT_ok {s : String} {a : σ}
    (h : E.sympify s = .ok a) : safe_sympifyT E s = .ok a := by
  simp [safe_sympifyT, h]

theorem safe_sympifyT_fail {s : String} {se : SymErr}
    (h : E.sympify s = .error se) :
    safe_sympifyT E s = .error (sympifyFailRes se) := by
  cases se <;> simp [safe_sympifyT, h, sympifyFailRes, parseMsg]

theorem safe_sympifyT_error_shape {s : String}
    {p : ErrKind × String} (h : safe_sympifyT E s = .error p) :
    p = (.parseErr, parseMsg) ∨
    ∃ d, p = (.evaluationErr, "Ошибка: " ++ d) := by
  unfold safe_sympifyT at h
  cases hs : E.sympify s with
  | ok a => rw [hs] at h; cases h
  | error se =>
    rw [hs] at h
    cases se with
    | sympifyError => left; cases h; rfl
    | exc msg => right; exact ⟨msg, by cases h; rfl⟩

theorem derivativeT_varFail {v : String} {se : SymErr}
    (hv : E.sympify v = .error se) (e : String) :
    derivativeT E e v =
      (.err (sympifyFailRes se).1 (sympifyFailRes se).2, [.sympifyCall v]) := by
  simp [derivativeT, safe_sympifyT_fail hv]

theorem derivativeT_exprFail {e v : String} {var : σ} {se : SymErr}
    (hv : E.sympify v = .ok var) (he : E.sympify e = .error se) :
    derivativeT E e v =
      (.err (sympifyFailRes se).1 (sympifyFailRes se).2,
       [.sympifyCall v, .sympifyCall e]) := by
  simp [derivativeT, safe_sympifyT_ok hv, safe_sympifyT_fail he]

theorem derivativeT_diff_ok {e v : String} {var expr d : σ}
    (hv : E.sympify v = .ok var) (he : E.sympify e = .ok expr)
    (hd : E.diff expr var = .ok d) :
    derivativeT E e v =
      (.ok (E.strOf d), [.sympifyCall v, .sympifyCall e, .diffCall]) := by
  simp [derivativeT, safe_sympifyT_ok hv, safe_sympifyT_ok he, hd]

theorem derivativeT_diff_fail {e v : String} {var expr : σ} {m : String}
    (hv : E.sympify v = .ok var) (he : E.sympify e = .ok expr)
    (hd : E.diff expr var = .error m) :
    derivativeT E e v =
      (.err .evaluationErr
         ("Ошибка: невозможно вычислить производную (" ++ m ++ ")"),
       [.sympifyCall v, .sympifyCall e, .diffCall]) := by
  simp [derivativeT, safe_sympifyT_ok hv, safe_sympifyT_ok he, hd]

theorem calculateT_exprFail {e : String} {se : SymErr}
    (he : E.sympify e = .error se) (subs : Option (List (String × ν))) :
    calculateT E e subs =
      (.err (sympifyFailRes se).1 (sympifyFailRes se).2, [.sympifyCall e]) := by
  simp [calculateT, safe_sympifyT_fail he]

theorem calculateT_skip_subs {e : String} {expr0 : σ}
    (he : E.sympify e = .ok expr0)
    (subs : Option (List (String × ν)))
    (hs : subs = none ∨ subs = some []) :
    calculateT E e subs =
      (match E.evalf expr0 with
       | .ok r => (.ok (E.strOf expr0) r, [.sympifyCall e, .evalfCall])
       | .error msg =>
           (.err .evaluationErr ("Ошибка при вычислении: " ++ msg),
            [.sympifyCall e, .evalfCall])) := by
  rcases hs with h | h <;> subst h <;>
    simp [calculateT, safe_sympifyT_ok he, List.isEmpty]

theorem calculateT_subs_fail {e : String} {expr0 : σ}
    {m : List (String × ν)} {msg : String}
    (he : E.sympify e = .ok expr0) (hm : m ≠ [])
    (hsub : E.subs expr0 m = .error msg) :
    calculateT E e (some m) =
      (.err .evaluationErr ("Ошибка в подстановке переменных: " ++ msg),
       [.sympifyCall e, .subsCall]) := by
  have : m.isEmpty = false := by simpa [List.isEmpty_iff] using hm
  simp [calculateT, safe_sympifyT_ok he, this, hsub]

theorem calculateT_subs_ok {e : String} {expr0 expr1 : σ}
    {m : List (String × ν)}
    (he : E.sympify e = .ok expr0) (hm : m ≠ [])
    (hsub : E.subs expr0 m = .ok expr1) :
    calculateT E e (some m) =
      (match E.evalf expr1 with
       | .ok r =>
           (.ok (E.strOf expr1) r, [.sympifyCall e, .subsCall, .evalfCall])
       | .error msg =>
           (.err .evaluationErr ("Ошибка при вычислении: " ++ msg),
            [.sympifyCall e, .subsCall, .evalfCall])) := by
  have : m.isEmpty = false := by simpa [List.isEmpty_iff] using hm
  simp [calculateT, safe_sympifyT_ok he, this, hsub]

theorem integrateT_varFail {v : String} {se : SymErr}
    (hv : E.sympify v = .error se) (e : String) (l u : Option String) :
    integrateT E e v l u =
      (.err (sympifyFailRes se).1 (sympifyFailRes se).2, [.sympifyCall v]) := by
  simp [integrateT, safe_sympifyT_fail hv]

theorem integrateT_exprFail {e v : String} {var : σ} {se : SymErr}
    (hv : E.sympify v = .ok var) (he : E.sympify e = .error se)
    (l u : Option String) :
    integrateT E e v l u =
      (.err (sympifyFailRes se).1 (sympifyFailRes se).2,
       [.sympifyCall v, .sympifyCall e]) := by
  simp [integrateT, safe_sympifyT_ok hv, safe_sympifyT_fail he]

theorem integrateT_oneBound {e v : String} {var expr : σ}
    (hv : E.sympify v = .ok var) (he : E.sympify e = .ok expr)
    {l u : Option String}
    (hone : (l.isSome ∧ u = none) ∨ (l = none ∧ u.isSome)) :
    integrateT E e v l u =
      (.err .validationErr boundsMsg, [.sympifyCall v, .sympifyCall e]) := by
  simp [integrateT, safe_sympifyT_ok hv, safe_sympifyT_ok he, hone, boundsMsg]

theorem integrateT_noBounds {e v : String} {var expr : σ}
    (hv : E.sympify v = .ok var) (he : E.sympify e = .ok expr) :
    integrateT E e v none none =
      (match E.integIndef expr var with
       | .ok i =>
           (.ok (E.strOf i),
            [.sympifyCall v, .sympifyCall e, .integIndefCall])
       | .error m =>
           (.err .evaluationErr
              ("Ошибка при вычислении неопределенного интеграла: " ++ m),
            [.sympifyCall v, .sympifyCall e, .integIndefCall])) := by
  simp [integrateT, safe_sympifyT_ok hv, safe_sympifyT_ok he]

theorem integrateT_badBounds {e v ls us : String} {var expr : σ}
    (hv : E.sympify v = .ok var) (he : E.sympify e = .ok expr)
    (hbad : (∃ se, E.sympify ls = .error se) ∨ (∃ se, E.sympify us = .error se)) :
    integrateT E e v (some ls) (some us) =
      (.err .parseErr invalidBoundsMsg,
       [.sympifyCall v, .sympifyCall e, .sympifyCall ls, .sympifyCall us]) := by
  have hno : ¬ (((some ls : Option String).isSome ∧ (some us : Option String) = none) ∨
      ((some ls : Option String) = none ∧ (some us : Option String).isSome)) := by
    simp
  rcases hbad with ⟨se, hb⟩ | ⟨se, hb⟩
  · cases ha : E.sympify us with
    | ok b =>
        simp [integrateT, safe_sympifyT_ok hv, safe_sympifyT_ok he, hno,
          safe_sympifyT_fail hb, safe_sympifyT_ok ha, invalidBoundsMsg]
    | error se' =>
        simp [integrateT, safe_sympifyT_ok hv, safe_sympifyT_ok he, hno,
          safe_sympifyT_fail hb, safe_sympifyT_fail ha, invalidBoundsMsg]
  · cases ha : E.sympify ls with
    | ok a =>
        simp [integrateT, safe_sympifyT_ok hv, safe_sympifyT_ok he, hno,
          safe_sympifyT_fail hb, safe_sympifyT_ok ha, invalidBoundsMsg]
    | error se' =>
        simp [integrateT, safe_sympifyT_ok hv, safe_sympifyT_ok he, hno,
          safe_sympifyT_fail hb, safe_sympifyT_fail ha, invalidBoundsMsg]

theorem integrateT_bothBounds {e v ls us : String} {var expr a b : σ}
    (hv : E.sympify v = .ok var) (he : E.sympify e = .ok expr)
    (ha : E.sympify ls = .ok a) (hb : E.sympify us = .ok b) :
    integrateT E e v (some ls) (some us) =
      (match E.integDef expr var a b with
       | .ok i =>
           (.ok (E.strOf i),
            [.sympifyCall v, .sympifyCall e, .sympifyCall ls,
             .sympifyCall us, .integDefCall])
       | .error m =>
           (.err .evaluationErr
              ("Ошибка при вычислении определенного интеграла: " ++ m),
            [.sympifyCall v, .sympifyCall e, .sympifyCall ls,
             .sympifyCall us, .integDefCall])) := by
  have hno : ¬ (((some ls : Option String).isSome ∧ (some us : Option String) = none) ∨
      ((some ls : Option String) = none ∧ (some us : Option String).isSome)) := by
    simp
  simp [integrateT, safe_sympifyT_ok hv, safe_sympifyT_ok he, hno,
    safe_sympifyT_ok ha, safe_sympifyT_ok hb]

theorem simplify_expressionT_exprFail {e : String} {se : SymErr}
    (he : E.sympify e = .error se) :
    simplify_expressionT E e =
      (.err (sympifyFailRes se).1 (sympifyFailRes se).2, [.sympifyCall e]) := by
  simp [simplify_expressionT, safe_sympifyT_fail he]

theorem simplify_expressionT_run {e : String} {expr : σ}
    (he : E.sympify e = .ok expr) :
    simplify_expressionT E e =
      (match E.simplifyE expr with
       | .ok s => (.ok (E.strOf s), [.sympifyCall e, .simplifyCall])
       | .error m =>
           (.err .evaluationErr ("Ошибка при упрощении: " ++ m),
            [.sympifyCall e, .simplifyCall])) := by
  simp [simplify_expressionT, safe_sympifyT_ok he]

theorem series_expansionT_varFail {v : String} {se : SymErr}
    (hv : E.sympify v = .error se) (e : String) (n : ord) (x0 : pt) :
    series_expansionT E e v n x0 =
      (.err (sympifyFailRes se).1 (sympifyFailRes se).2, [.sympifyCall v]) := by
  simp [series_expansionT, safe_sympifyT_fail hv]

theorem series_expansionT_exprFail {e v : String} {var : σ} {se : SymErr}
    (hv : E.sympify v = .ok var) (he : E.sympify e = .error se)
    (n : ord) (x0 : pt) :
    series_expansionT E e v n x0 =
      (.err (sympifyFailRes se).1 (sympifyFailRes se).2,
       [.sympifyCall v, .sympifyCall e]) := by
  simp [series_expansionT, safe_sympifyT_ok hv, safe_sympifyT_fail he]

theorem series_expansionT_run {e v : String} {var expr : σ}
    (hv : E.sympify v = .ok var) (he : E.sympify e = .ok expr)
    (n : ord) (x0 : pt) :
    series_expansionT E e v n x0 =
      (match E.seriesE expr var x0 n with
       | .ok s =>
           (.ok (E.strOf s), [.sympifyCall v, .sympifyCall e, .seriesCall])
       | .error m =>
           (.err .evaluationErr ("Ошибка при разложении в ряд: " ++ m),
            [.sympifyCall v, .sympifyCall e, .seriesCall])) := by
  simp [series_expansionT, safe_sympifyT_ok hv, safe_sympifyT_ok he]

theorem derivativeT_outcome (E : Engine σ ν ord pt) (e v : String) :
    derivOutcome (derivativeT E e v).1 := by
  cases hv : E.sympify v with
  | error se =>
    rw [derivativeT_varFail hv]
    cases se with
    | sympifyError => exact Or.inr (Or.inl rfl)
    | exc msg => exact Or.inr (Or.inr (Or.inl ⟨msg, rfl⟩))
  | ok var =>
    cases he : E.sympify e with
    | error se =>
      rw [derivativeT_exprFail hv he]
      cases se with
      | sympifyError => exact Or.inr (Or.inl rfl)
      | exc msg => exact Or.inr (Or.inr (Or.inl ⟨msg, rfl⟩))
    | ok expr =>
      cases hd : E.diff expr var with
      | ok d => rw [derivativeT_diff_ok hv he hd]; exact Or.inl ⟨E.strOf d, rfl⟩
      | error m =>
        rw [derivativeT_diff_fail hv he hd]
        exact Or.inr (Or.inr (Or.inr ⟨m, rfl⟩))

theorem calculateT_outcome (E : Engine σ ν ord pt) (e : String)
    (subs : Option (List (String × ν))) :
    calcOutcome (calculateT E e subs).1 := by
  cases he : E.sympify e with
  | error se =>
    rw [calculateT_exprFail he]
    cases se with
    | sympifyError => exact Or.inr (Or.inl rfl)
    | exc msg => exact Or.inr (Or.inr (Or.inl ⟨msg, rfl⟩))
  | ok expr0 =>
    have evalCase : ∀ expr1 tr, calcOutcome
        ((match E.evalf expr1 with
          | .ok r => (CalcResult.ok (E.strOf expr1) r, tr)
          | .error msg =>
              (CalcResult.err .evaluationErr ("Ошибка при вычислении: " ++ msg),
               tr)) : CalcResult σ × List EngineCall).1 := by
      intro expr1 tr
      cases hev : E.evalf expr1 with
      | ok r => exact Or.inl ⟨E.strOf expr1, r, rfl⟩
      | error m => exact Or.inr (Or.inr (Or.inr (Or.inr ⟨m, rfl⟩)))
    cases subs with
    | none => rw [calculateT_skip_subs he none (Or.inl rfl)]; exact evalCase expr0 _
    | some m =>
      rcases List.eq_nil_or_concat m with hm | ⟨_, _, hm'⟩
      · subst hm
        rw [calculateT_skip_subs he (some []) (Or.inr rfl)]
        exact evalCase expr0 _
      · have hm : m ≠ [] := by rw [hm']; exact List.concat_ne_nil _ _
        cases hsub : E.subs expr0 m with
        | error msg =>
          rw [calculateT_subs_fail he hm hsub]
          exact Or.inr (Or.inr (Or.inr (Or.inl ⟨msg, rfl⟩)))
        | ok expr1 =>
          rw [calculateT_subs_ok he hm hsub]
          exact evalCase expr1 _

theorem integrateT_outcome (E : Engine σ ν ord pt) (e v : String)
    (l u : Option String) : integOutcome (integrateT E e v l u).1 := by
  cases hv : E.sympify v with
  | error se =>
    rw [integrateT_varFail hv]
    cases se with
    | sympifyError => exact Or.inr (Or.inl rfl)
    | exc msg => exact Or.inr (Or.inr (Or.inl ⟨msg, rfl⟩))
  | ok var =>
    cases he : E.sympify e with
    | error se =>
      rw [integrateT_exprFail hv he]
      cases se with
      | sympifyError => exact Or.inr (Or.inl rfl)
      | exc msg => exact Or.inr (Or.inr (Or.inl ⟨msg, rfl⟩))
    | ok expr =>
      cases l with
      | none =>
        cases u with
        | none =>
          rw [integrateT_noBounds hv he]
          cases hi : E.integIndef expr var with
          | ok i => exact Or.inl ⟨E.strOf i, rfl⟩
          | error m =>
            exact Or.inr (Or.inr (Or.inr (Or.inr (Or.inr (Or.inr ⟨m, rfl⟩)))))
        | some us =>
          rw [integrateT_oneBound (l := none) (u := some us) hv he
            (Or.inr ⟨rfl, rfl⟩)]
          exact Or.inr (Or.inr (Or.inr (Or.inl rfl)))
      | some ls =>
        cases u with
        | none =>
          rw [integrateT_oneBound (l := some ls) (u := none) hv he
            (Or.inl ⟨rfl, rfl⟩)]
          exact Or.inr (Or.inr (Or.inr (Or.inl rfl)))
        | some us =>
          cases ha : E.sympify ls with
          | error se =>
            rw [integrateT_badBounds hv he (Or.inl ⟨se, ha⟩)]
            exact Or.inr (Or.inr (Or.inr (Or.inr (Or.inl rfl))))
          | ok a =>
            cases hb : E.sympify us with
            | error se =>
              rw [integrateT_badBounds hv he (Or.inr ⟨se, hb⟩)]
              exact Or.inr (Or.inr (Or.inr (Or.inr (Or.inl rfl))))
            | ok b =>
              rw [integrateT_bothBounds hv he ha hb]
              cases hi : E.integDef expr var a b with
              | ok i => exact Or.inl ⟨E.strOf i, rfl⟩
              | error m =>
                exact Or.inr (Or.inr (Or.inr (Or.inr (Or.inr (Or.inl ⟨m, rfl⟩)))))

theorem simplify_expressionT_outcome (E : Engine σ ν ord pt) (e : String) :
    simpOutcome (simplify_expressionT E e).1 := by
  cases he : E.sympify e with
  | error se =>
    rw [simplify_expressionT_exprFail he]
    cases se with
    | sympifyError => exact Or.inr (Or.inl rfl)
    | exc msg => exact Or.inr (Or.inr (Or.inl ⟨msg, rfl⟩))
  | ok expr =>
    rw [simplify_expressionT_run he]
    cases hs : E.simplifyE expr with
    | ok s => exact Or.inl ⟨E.strOf s, rfl⟩
    | error m => exact Or.inr (Or.inr (Or.inr ⟨m, rfl⟩))

theorem series_expansionT_outcome (E : Engine σ ν ord pt) (e v : String)
    (n : ord) (x0 : pt) : seriesOutcome (series_expansionT E e v n x0).1 := by
  cases hv : E.sympify v with
  | error se =>
    rw [series_expansionT_varFail hv]
    cases se with
    | sympifyError => exact Or.inr (Or.inl rfl)
    | exc msg => exact Or.inr (Or.inr (Or.inl ⟨msg, rfl⟩))
  | ok var =>
    cases he : E.sympify e with
    | error se =>
      rw [series_expansionT_exprFail hv he]
      cases se with
      | sympifyError => exact Or.inr (Or.inl rfl)
      | exc msg => exact Or.inr (Or.inr (Or.inl ⟨msg, rfl⟩))
    | ok expr =>
      rw [series_expansionT_run hv he]
      cases hs : E.seriesE expr var x0 n with
      | ok s => exact Or.inl ⟨E.strOf s, rfl⟩
      | error m => exact Or.inr (Or.inr (Or.inr ⟨m, rfl⟩))

end ControlFlow

/-!
## String helpers for distinguishing the error-message families
-/

theorem take_append_of_le {α : Type} (n : Nat) (l₁ l₂ : List α)
    (h : n ≤ l₁.length) : (l₁ ++ l₂).take n = l₁.take n := by
  have h1 : (l₁.take n).length = n := by
    simp [List.length_take, Nat.min_eq_left h]
  calc (l₁ ++ l₂).take n
      = ((l₁.take n ++ l₁.drop n) ++ l₂).take n := by
        rw [List.take_append_drop]
    _ = (l₁.take n ++ (l₁.drop n ++ l₂)).take n := by rw [List.append_assoc]
    _ = l₁.take n := List.take_left' h1

theorem isErrorMarked_append {a : String} (x : String)
    (h6 : 6 ≤ a.data.length) (ha : isErrorMarked a) :
    isErrorMarked (a ++ x) := by
  unfold isErrorMarked at ha ⊢
  rw [String.data_append, take_append_of_le 6 _ _ h6, ha]

theorem append_ne_append_of_take_ne (a b x y : String) (n : Nat)
    (hna : n ≤ a.data.length) (hnb : n ≤ b.data.length)
    (hne : a.data.take n ≠ b.data.take n) : a ++ x ≠ b ++ y := by
  intro h
  apply hne
  have hd : (a ++ x).data = (b ++ y).data := congrArg String.data h
  rw [String.data_append, String.data_append] at hd
  calc a.data.take n = (a.data ++ x.data).take n :=
        (take_append_of_le n _ _ hna).symm
    _ = (b.data ++ y.data).take n := by rw [hd]
    _ = b.data.take n := take_append_of_le n _ _ hnb

theorem fixed_ne_append (a b y : String) (n : Nat)
    (hnb : n ≤ b.data.length) (hne : a.data.take n ≠ b.data.take n) :
    a ≠ b ++ y := by
  intro h
  apply hne
  rw [h, String.data_append, take_append_of_le n _ _ hnb]

theorem marked_concat (pre : String) (h6 : 6 ≤ pre.data.length)
    (hm : isErrorMarked pre) : ∀ d, isErrorMarked (pre ++ d) :=
  fun d => isErrorMarked_append d h6 hm

theorem marked_concat2 (pre mid post : String) (h6 : 6 ≤ pre.data.length)
    (hm : isErrorMarked pre) : isErrorMarked (pre ++ mid ++ post) := by
  apply isErrorMarked_append
  · rw [String.data_append, List.length_append]; omega
  · exact isErrorMarked_append mid h6 hm

/-!
## Polynomial semantics: bridging coefficient lists to Mathlib polynomials
-/

theorem toPoly_num (q : ℚ) (s : String) : toPoly (.num q) s = some [q] := rfl

theorem toPoly_sym (t s : String) :
    toPoly (.sym t) s = if t = s then some [0, 1] else none := rfl

theorem toPoly_addE (a b : MExpr) (s : String) :
    toPoly (.add a b) s =
      match toPoly a s, toPoly b s with
      | some p, some q => some (polyAdd p q)
      | _, _ => none := rfl

theorem toPoly_mulE (a b : MExpr) (s : String) :
    toPoly (.mul a b) s =
      match toPoly a s, toPoly b s with
      | some p, some q => some (polyMul p q)
      | _, _ => none := rfl

theorem toPoly_powE (a b : MExpr) (s : String) :
    toPoly (.pow a b) s =
      match toPoly a s, b with
      | some p, .num q =>
          if q.den = 1 ∧ 0 ≤ q.num then some (polyPow p q.num.toNat)
          else none
      | _, _ => none := rfl

theorem evalPoly_eq (p : List ℚ) (x : ℚ) :
    evalPoly p x = (toMathPoly p).eval x := by
  induction p with
  | nil => simp [evalPoly, toMathPoly]
  | cons c p ih =>
    rw [show evalPoly (c :: p) x = c + x * evalPoly p x from rfl, ih,
      toMathPoly]
    simp [Polynomial.eval_add, Polynomial.eval_mul]

theorem toMathPoly_polyAdd : ∀ p q : List ℚ,
    toMathPoly (polyAdd p q) = toMathPoly p + toMathPoly q := by
  intro p
  induction p with
  | nil => intro q; simp [polyAdd, toMathPoly]
  | cons c p ih =>
    intro q
    cases q with
    | nil => simp [polyAdd, toMathPoly]
    | cons d q =>
      simp [polyAdd, toMathPoly, ih]
      ring

theorem toMathPoly_polyScale (c : ℚ) : ∀ p : List ℚ,
    toMathPoly (polyScale c p) = Polynomial.C c * toMathPoly p := by
  intro p
  induction p with
  | nil => simp [polyScale, toMathPoly]
  | cons d p ih =>
    simp only [polyScale, List.map_cons, toMathPoly] at ih ⊢
    rw [show toMathPoly (List.map (fun d => c * d) p) =
      Polynomial.C c * toMathPoly p from ih]
    simp [Polynomial.C_mul]
    ring

theorem toMathPoly_polyMul : ∀ p q : List ℚ,
    toMathPoly (polyMul p q) = toMathPoly p * toMathPoly q := by
  intro p
  induction p with
  | nil => intro q; simp [polyMul, toMathPoly]
  | cons c p ih =>
    intro q
    simp only [polyMul, toMathPoly_polyAdd, toMathPoly_polyScale, toMathPoly,
      ih, Polynomial.C_0]
    ring

theorem toMathPoly_polyPow (p : List ℚ) : ∀ n : Nat,
    toMathPoly (polyPow p n) = toMathPoly p ^ n := by
  intro n
  induction n with
  | zero => simp [polyPow, toMathPoly]
  | succ n ih => simp [polyPow, toMathPoly_polyMul, ih, pow_succ]; ring

/-- Expressions viewed as univariate polynomials evaluate accordingly. -/
theorem meval_toPoly : ∀ (t : MExpr) (s : String) (p : List ℚ)
    (ρ : String → ℚ), toPoly t s = some p →
    meval t ρ = evalPoly p (ρ s) := by
  intro t
  induction t with
  | num q =>
    intro s p ρ h
    rw [toPoly_num] at h
    simp only [Option.some.injEq] at h
    subst h
    simp [meval, evalPoly]
  | sym t' =>
    intro s p ρ h
    rw [toPoly_sym] at h
    split_ifs at h with ht
    simp only [Option.some.injEq] at h
    subst h ht
    simp [meval, evalPoly]
  | add a b iha ihb =>
    intro s p ρ h
    rw [toPoly_addE] at h
    cases ha : toPoly a s with
    | none => rw [ha] at h; cases h
    | some pa =>
      cases hb : toPoly b s with
      | none => rw [ha, hb] at h; cases h
      | some pb =>
        rw [ha, hb] at h
        simp only [Option.some.injEq] at h
        subst h
        rw [show meval (MExpr.add a b) ρ = meval a ρ + meval b ρ from rfl,
          iha s pa ρ ha, ihb s pb ρ hb, evalPoly_eq, evalPoly_eq,
          evalPoly_eq, toMathPoly_polyAdd]
        simp
  | mul a b iha ihb =>
    intro s p ρ h
    rw [toPoly_mulE] at h
    cases ha : toPoly a s with
    | none => rw [ha] at h; cases h
    | some pa =>
      cases hb : toPoly b s with
      | none => rw [ha, hb] at h; cases h
      | some pb =>
        rw [ha, hb] at h
        simp only [Option.some.injEq] at h
        subst h
        rw [show meval (MExpr.mul a b) ρ = meval a ρ * meval b ρ from rfl,
          iha s pa ρ ha, ihb s pb ρ hb, evalPoly_eq, evalPoly_eq,
          evalPoly_eq, toMathPoly_polyMul]
        simp
  | pow a b iha ihb =>
    intro s p ρ h
    rw [toPoly_powE] at h
    cases ha : toPoly a s with
    | none => rw [ha] at h; cases h
    | some pa =>
      cases b with
      | num k =>
        rw [ha] at h
        rw [show (match some pa, MExpr.num k with
          | some p, MExpr.num q =>
              if q.den = 1 ∧ 0 ≤ q.num then some (polyPow p q.num.toNat)
              else none
          | _, _ => (none : Option (List ℚ))) =
          (if k.den = 1 ∧ 0 ≤ k.num then some (polyPow pa k.num.toNat)
           else none) from rfl] at h
        split_ifs at h with hk
        simp only [Option.some.injEq] at h
        subst h
        rw [show meval (MExpr.pow a (MExpr.num k)) ρ =
          meval a ρ ^ (meval (MExpr.num k) ρ).num from rfl]
        rw [show (meval (MExpr.num k) ρ).num = k.num from rfl]
        rw [iha s pa ρ ha]
        rw [show k.num = ((k.num.toNat : ℕ) : ℤ) by
          rw [Int.toNat_of_nonneg hk.2]]
        rw [zpow_natCast, evalPoly_eq, evalPoly_eq, toMathPoly_polyPow]
        simp only [Polynomial.eval_pow, Int.toNat_natCast]
      | sym t' => rw [ha] at h; cases h
      | add x y => rw [ha] at h; cases h
      | mul x y => rw [ha] at h; cases h
      | pow x y => rw [ha] at h; cases h

/-!
## The antiderivative round-trip (for the integrate/derivative law)

`ediff` applied to a polynomial expression realises the formal derivative
of its `toPoly` image; `fromPolyAux` produces canonical expressions whose
`toPoly` image is the original polynomial shifted by the starting degree;
and `polyInteg` is a right inverse of the formal derivative.
-/

theorem fromPolyAux_cons (c : ℚ) (l : List ℚ) (s : String) (i : Nat) :
    fromPolyAux (c :: l) s i =
      mkAdd (mkMul (.num c) (mkPow (.sym s) (.num (i : ℚ))))
        (fromPolyAux l s (i + 1)) := rfl

theorem fromPolyAux_canon {s : String} (hs : wfIdent s = true) :
    ∀ (l : List ℚ) (i : Nat), canonB (fromPolyAux l s i) = true := by
  intro l
  induction l with
  | nil => intro i; rfl
  | cons c l ih =>
    intro i
    rw [fromPolyAux_cons]
    exact mkAdd_canon (mkMul_canon rfl (mkPow_canon hs rfl)) (ih (i + 1))

theorem mkAdd_cases (a b : MExpr) :
    mkAdd a b = MExpr.add a b ∨
    (∃ p q : ℚ, a = MExpr.num p ∧ b = MExpr.num q ∧
      mkAdd a b = MExpr.num (p + q)) ∨
    (a = MExpr.num 0 ∧ mkAdd a b = b) ∨
    (b = MExpr.num 0 ∧ mkAdd a b = a) := by
  cases a <;> cases b <;> simp [mkAdd] <;> tauto

theorem mkMul_cases (a b : MExpr) :
    mkMul a b = MExpr.mul a b ∨
    (∃ p q : ℚ, a = MExpr.num p ∧ b = MExpr.num q ∧
      mkMul a b = MExpr.num (p * q)) ∨
    (a = MExpr.num 0 ∧ mkMul a b = MExpr.num 0) ∨
    (b = MExpr.num 0 ∧ mkMul a b = MExpr.num 0) ∨
    (a = MExpr.num 1 ∧ mkMul a b = b) ∨
    (b = MExpr.num 1 ∧ mkMul a b = a) := by
  cases a <;> cases b <;> simp [mkMul] <;>
    first
      | tauto
      | (split_ifs <;> tauto)

theorem toPoly_mkAdd {a b : MExpr} {s : String} {pa pb : List ℚ}
    (ha : toPoly a s = some pa) (hb : toPoly b s = some pb) :
    ∃ r, toPoly (mkAdd a b) s = some r ∧
      toMathPoly r = toMathPoly pa + toMathPoly pb := by
  rcases mkAdd_cases a b with h | ⟨p, q, rfl, rfl, h⟩ | ⟨rfl, h⟩ | ⟨rfl, h⟩
  · refine ⟨polyAdd pa pb, ?_, toMathPoly_polyAdd pa pb⟩
    rw [h, toPoly_addE, ha, hb]
  · rw [toPoly_num] at ha hb
    simp only [Option.some.injEq] at ha hb
    subst ha hb
    refine ⟨[p + q], by rw [h, toPoly_num], ?_⟩
    simp [toMathPoly, Polynomial.C_add]
  · rw [toPoly_num] at ha
    simp only [Option.some.injEq] at ha
    subst ha
    refine ⟨pb, by rw [h]; exact hb, ?_⟩
    simp [toMathPoly]
  · rw [toPoly_num] at hb
    simp only [Option.some.injEq] at hb
    subst hb
    refine ⟨pa, by rw [h]; exact ha, ?_⟩
    simp [toMathPoly]

theorem toPoly_mkMul {a b : MExpr} {s : String} {pa pb : List ℚ}
    (ha : toPoly a s = some pa) (hb : toPoly b s = some pb) :
    ∃ r, toPoly (mkMul a b) s = some r ∧
      toMathPoly r = toMathPoly pa * toMathPoly pb := by
  rcases mkMul_cases a b with
    h | ⟨p, q, rfl, rfl, h⟩ | ⟨rfl, h⟩ | ⟨rfl, h⟩ | ⟨rfl, h⟩ | ⟨rfl, h⟩
  · refine ⟨polyMul pa pb, ?_, toMathPoly_polyMul pa pb⟩
    rw [h, toPoly_mulE, ha, hb]
  · rw [toPoly_num] at ha hb
    simp only [Option.some.injEq] at ha hb
    subst ha hb
    refine ⟨[p * q], by rw [h, toPoly_num], ?_⟩
    simp [toMathPoly, Polynomial.C_mul]
  · rw [toPoly_num] at ha
    simp only [Option.some.injEq] at ha
    subst ha
    refine ⟨[0], by rw [h, toPoly_num], ?_⟩
    simp [toMathPoly]
  · rw [toPoly_num] at hb
    simp only [Option.some.injEq] at hb
    subst hb
    refine ⟨[0], by rw [h, toPoly_num], ?_⟩
    simp [toMathPoly]
  · rw [toPoly_num] at ha
    simp only [Option.some.injEq] at ha
    subst ha
    refine ⟨pb, by rw [h]; exact hb, ?_⟩
    simp [toMathPoly]
  · rw [toPoly_num] at hb
    simp only [Option.some.injEq] at hb
    subst hb
    refine ⟨pa, by rw [h]; exact ha, ?_⟩
    simp [toMathPoly]

theorem toPoly_mkPow_symNat (s : String) (i : Nat) :
    ∃ r, toPoly (mkPow (MExpr.sym s) (MExpr.num (i : ℚ))) s = some r ∧
      toMathPoly r = Polynomial.X ^ i := by
  match i with
  | 0 =>
    refine ⟨[1], ?_, ?_⟩
    · rw [show mkPow (MExpr.sym s) (MExpr.num ((0 : Nat) : ℚ)) =
        MExpr.num 1 by simp [mkPow]]
      exact toPoly_num 1 s
    · simp [toMathPoly]
  | 1 =>
    refine ⟨[0, 1], ?_, ?_⟩
    · rw [show mkPow (MExpr.sym s) (MExpr.num ((1 : Nat) : ℚ)) =
        MExpr.sym s by simp [mkPow]]
      simp [toPoly_sym]
    · simp [toMathPoly]
  | (n + 2) =>
    have h0 : ¬ ((n + 2 : Nat) : ℚ) = 0 := by
      rw [Nat.cast_eq_zero]; omega
    have h1 : ¬ ((n + 2 : Nat) : ℚ) = 1 := by
      rw [Nat.cast_eq_one]; omega
    refine ⟨polyPow [0, 1] (n + 2), ?_, ?_⟩
    · rw [show mkPow (MExpr.sym s) (MExpr.num ((n + 2 : Nat) : ℚ)) =
        (if ((n + 2 : Nat) : ℚ) = 0 then MExpr.num 1
         else if ((n + 2 : Nat) : ℚ) = 1 then MExpr.sym s
         else MExpr.pow (MExpr.sym s) (MExpr.num ((n + 2 : Nat) : ℚ)))
        from rfl, if_neg h0, if_neg h1]
      rw [toPoly_powE, toPoly_sym, if_pos rfl]
      rw [show (match (some [(0 : ℚ), 1] : Option (List ℚ)),
          MExpr.num ((n + 2 : Nat) : ℚ) with
        | some p, MExpr.num q =>
            if q.den = 1 ∧ 0 ≤ q.num then some (polyPow p q.num.toNat)
            else none
        | _, _ => (none : Option (List ℚ))) =
        (if ((n + 2 : Nat) : ℚ).den = 1 ∧ 0 ≤ ((n + 2 : Nat) : ℚ).num then
          some (polyPow [0, 1] ((n + 2 : Nat) : ℚ).num.toNat)
         else none) from rfl]
      rw [if_pos ⟨Rat.den_natCast _, by rw [Rat.num_natCast]; omega⟩]
      rw [Rat.num_natCast, Int.toNat_natCast]
    · rw [toMathPoly_polyPow]
      simp [toMathPoly]

theorem ediff_numE (q : ℚ) (s : String) :
    ediff (.num q) s = some (.num 0) := rfl

theorem ediff_symE (t s : String) :
    ediff (.sym t) s = some (if t = s then .num 1 else .num 0) := rfl

theorem ediff_addE (a b : MExpr) (s : String) :
    ediff (.add a b) s =
      match ediff a s, ediff b s with
      | some da, some db => some (mkAdd da db)
      | _, _ => none := rfl

theorem ediff_mulE (a b : MExpr) (s : String) :
    ediff (.mul a b) s =
      match ediff a s, ediff b s with
      | some da, some db => some (mkAdd (mkMul da b) (mkMul a db))
      | _, _ => none := rfl

theorem ediff_powE (a b : MExpr) (s : String) :
    ediff (.pow a b) s =
      if s ∈ mvars b then none
      else match ediff a s with
        | some da =>
            some (mkMul (mkMul b (mkPow a (mkAdd b (.num (-1))))) da)
        | none => none := rfl

/-- On the polynomial fragment, `ediff` succeeds and computes the formal
derivative of the `toPoly` image (as evaluated functions). -/
theorem ediff_deriv {s : String} : ∀ {t : MExpr} {p : List ℚ},
    toPoly t s = some p → ∃ d, ediff t s = some d ∧
      ∀ ρ : String → ℚ,
        meval d ρ = (Polynomial.derivative (toMathPoly p)).eval (ρ s) := by
  intro t
  induction t with
  | num q =>
    intro p h
    rw [toPoly_num] at h
    simp only [Option.some.injEq] at h
    subst h
    exact ⟨.num 0, rfl, fun ρ => by simp [meval, toMathPoly]⟩
  | sym t' =>
    intro p h
    rw [toPoly_sym] at h
    split_ifs at h with ht
    simp only [Option.some.injEq] at h
    subst h ht
    refine ⟨.num 1, ?_, fun ρ => by simp [meval, toMathPoly]⟩
    rw [ediff_symE, if_pos rfl]
  | add a b iha ihb =>
    intro p h
    rw [toPoly_addE] at h
    cases ha : toPoly a s with
    | none => rw [ha] at h; cases h
    | some pa =>
      cases hb : toPoly b s with
      | none => rw [ha, hb] at h; cases h
      | some pb =>
        rw [ha, hb] at h
        simp only [Option.some.injEq] at h
        subst h
        obtain ⟨da, hda, hmda⟩ := iha ha
        obtain ⟨db, hdb, hmdb⟩ := ihb hb
        refine ⟨mkAdd da db, ?_, ?_⟩
        · rw [ediff_addE, hda, hdb]
        · intro ρ
          rw [meval_mkAdd, hmda ρ, hmdb ρ, toMathPoly_polyAdd]
          simp
  | mul a b iha ihb =>
    intro p h
    rw [toPoly_mulE] at h
    cases ha : toPoly a s with
    | none => rw [ha] at h; cases h
    | some pa =>
      cases hb : toPoly b s with
      | none => rw [ha, hb] at h; cases h
      | some pb =>
        rw [ha, hb] at h
        simp only [Option.some.injEq] at h
        subst h
        obtain ⟨da, hda, hmda⟩ := iha ha
        obtain ⟨db, hdb, hmdb⟩ := ihb hb
        refine ⟨mkAdd (mkMul da b) (mkMul a db), ?_, ?_⟩
        · rw [ediff_mulE, hda, hdb]
        · intro ρ
          rw [meval_mkAdd, meval_mkMul, meval_mkMul, hmda ρ, hmdb ρ,
            meval_toPoly a s pa ρ ha, meval_toPoly b s pb ρ hb,
            evalPoly_eq, evalPoly_eq, toMathPoly_polyMul,
            Polynomial.derivative_mul]
          simp
  | pow a b iha ihb =>
    intro p h
    rw [toPoly_powE] at h
    cases ha : toPoly a s with
    | none => rw [ha] at h; cases h
    | some pa =>
      cases b with
      | num k =>
        rw [ha] at h
        rw [show (match (some pa : Option (List ℚ)), MExpr.num k with
          | some p, MExpr.num q =>
              if q.den = 1 ∧ 0 ≤ q.num then some (polyPow p q.num.toNat)
              else none
          | _, _ => (none : Option (List ℚ))) =
          (if k.den = 1 ∧ 0 ≤ k.num then some (polyPow pa k.num.toNat)
           else none) from rfl] at h
        split_ifs at h with hk
        simp only [Option.some.injEq] at h
        subst h
        obtain ⟨da, hda, hmda⟩ := iha ha
        refine ⟨mkMul (mkMul (MExpr.num k)
          (mkPow a (mkAdd (MExpr.num k) (MExpr.num (-1))))) da, ?_, ?_⟩
        · rw [ediff_powE, if_neg (by simp [mvars]), hda]
        · intro ρ
          have hkq : (k.num : ℚ) = k := by
            have hq := Rat.num_div_den k
            rw [hk.1] at hq
            simpa using hq
          rw [meval_mkMul, meval_mkMul, meval_mkPow]
          rw [show mkAdd (MExpr.num k) (MExpr.num (-1)) =
            MExpr.num (k + (-1)) from rfl]
          rw [show meval (MExpr.num k) ρ = k from rfl,
            show meval (MExpr.num (k + (-1))) ρ = k + (-1) from rfl,
            hmda ρ, meval_toPoly a s pa ρ ha, evalPoly_eq]
          by_cases h0 : k.num = 0
          · have hk0 : k = 0 := by rw [← hkq, h0]; simp
            subst hk0
            rw [show ((0 : ℚ).num.toNat) = 0 from rfl]
            simp [toMathPoly, polyPow]
          · obtain ⟨m, hm⟩ : ∃ m : Nat, k.num = (m : ℤ) + 1 :=
              ⟨(k.num - 1).toNat, by omega⟩
            have hexp : (k + (-1)).num = (m : ℤ) := by
              rw [← hkq, hm]
              rw [show (((m : ℤ) + 1 : ℤ) : ℚ) + (-1) = ((m : ℤ) : ℚ) by
                push_cast; ring]
              exact Rat.num_intCast m
            have hn : k.num.toNat = m + 1 := by omega
            rw [hexp, zpow_natCast, hn, toMathPoly_polyPow,
              Polynomial.derivative_pow]
            simp only [Polynomial.eval_mul, Polynomial.eval_pow,
              Polynomial.eval_C, Nat.add_sub_cancel]
            rw [show (((m + 1 : Nat) : ℚ)) = k by
              rw [← hkq, hm]; push_cast; ring]
      | sym t' => rw [ha] at h; cases h
      | add x y => rw [ha] at h; cases h
      | mul x y => rw [ha] at h; cases h
      | pow x y => rw [ha] at h; cases h

theorem toPoly_fromPolyAux {s : String} :
    ∀ (l : List ℚ) (i : Nat), ∃ r,
      toPoly (fromPolyAux l s i) s = some r ∧
      toMathPoly r = Polynomial.X ^ i * toMathPoly l := by
  intro l
  induction l with
  | nil =>
    intro i
    exact ⟨[0], rfl, by simp [toMathPoly]⟩
  | cons c l ih =>
    intro i
    obtain ⟨r₃, h₃, hm₃⟩ := ih (i + 1)
    obtain ⟨r₁, h₁, hm₁⟩ := toPoly_mkPow_symNat s i
    obtain ⟨r₂, h₂, hm₂⟩ := toPoly_mkMul (toPoly_num c s) h₁
    obtain ⟨r, hr, hmr⟩ := toPoly_mkAdd h₂ h₃
    rw [fromPolyAux_cons]
    refine ⟨r, hr, ?_⟩
    rw [hmr, hm₂, hm₃, hm₁]
    simp [toMathPoly]
    ring

theorem polyIntegAux_deriv : ∀ (p : List ℚ) (i : Nat),
    Polynomial.C (((i : Nat) : ℚ) + 1) * toMathPoly (polyIntegAux p i) +
      Polynomial.X *
        Polynomial.derivative (toMathPoly (polyIntegAux p i)) =
      toMathPoly p := by
  intro p
  induction p with
  | nil => intro i; simp [polyIntegAux, toMathPoly]
  | cons c p ih =>
    intro i
    have h := ih (i + 1)
    have hne : ((i : ℚ) + 1) ≠ 0 := by positivity
    have hC : Polynomial.C ((i : ℚ) + 1) *
        Polynomial.C (c / ((i : ℚ) + 1)) = Polynomial.C c := by
      rw [← Polynomial.C_mul, mul_comm, div_mul_cancel₀ _ hne]
    rw [show polyIntegAux (c :: p) i =
      (c / ((i : ℚ) + 1)) :: polyIntegAux p (i + 1) from rfl]
    rw [show toMathPoly ((c / ((i : ℚ) + 1)) :: polyIntegAux p (i + 1)) =
      Polynomial.C (c / ((i : ℚ) + 1)) +
        Polynomial.X * toMathPoly (polyIntegAux p (i + 1)) from rfl]
    rw [show toMathPoly (c :: p) =
      Polynomial.C c + Polynomial.X * toMathPoly p from rfl, ← h, ← hC]
    have hcast : ((i + 1 : Nat) : ℚ) + 1 = ((i : ℚ) + 1) + 1 := by
      push_cast; ring
    rw [hcast]
    simp only [Polynomial.derivative_add, Polynomial.derivative_C,
      Polynomial.derivative_mul, Polynomial.derivative_X, zero_add,
      one_mul, Polynomial.C_add, Polynomial.C_1]
    ring

/-- `polyInteg` is a right inverse of the formal derivative. -/
theorem derivative_polyInteg (p : List ℚ) :
    Polynomial.derivative (toMathPoly (polyInteg p)) = toMathPoly p := by
  have h := polyIntegAux_deriv p 0
  rw [show polyInteg p = 0 :: polyIntegAux p 0 from rfl,
    show toMathPoly ((0 : ℚ) :: polyIntegAux p 0) =
      Polynomial.C 0 + Polynomial.X * toMathPoly (polyIntegAux p 0)
      from rfl]
  simp only [Polynomial.derivative_add, Polynomial.derivative_C,
    Polynomial.derivative_mul, Polynomial.derivative_X, zero_add, one_mul]
  rw [← h]
  norm_num

/-!
## Model-engine corollaries used by the claims
-/

theorem mstr_zero : mstr (MExpr.num 0) = "0" := by decide

theorem simplify_mEngine_ok {e : String} {a : MExpr}
    (he : msympify e = .ok a) (hca : canonB a = true) :
    simplify_expressionT mEngine e =
      (.ok (mstr a), [.sympifyCall e, .simplifyCall]) := by
  rw [simplify_expressionT_run (E := mEngine) he]
  have hs : mEngine.simplifyE a = .ok a := by
    show msimplifyE a = .ok a
    simp [msimplifyE, recanon_of_canon hca]
  rw [hs]
  rfl

/-!
## The claims
-/

section Claims

/-- C1.  For every input (any strings for expression, variable, bounds,
any substitution map, any runtime value for the series order and
expansion point) and every behaviour of the engine — including engines
whose every capability raises, modelled by `Except.error` results — each
of the five operations is a total function returning a value (an
`OpResult`, for `calculate` a `CalcResult` rendering to a pair), so no
engine exception propagates uncaught; and every failure it can return is
one of the operation's enumerated messages, each tagged `parseErr`,
`validationErr` or `evaluationErr` — the spec's three error kinds. -/
theorem claim_c1_totality_and_taxonomy :
    ∀ (σ ν ord pt : Type) (E : Engine σ ν ord pt) (e v : String)
      (l u : Option String) (subs : Option (List (String × ν)))
      (n : ord) (x0 : pt),
      derivOutcome (derivativeT E e v).1 ∧
      calcOutcome (calculateT E e subs).1 ∧
      integOutcome (integrateT E e v l u).1 ∧
      simpOutcome (simplify_expressionT E e).1 ∧
      seriesOutcome (series_expansionT E e v n x0).1 :=
  fun _ _ _ _ E e v l u subs n x0 =>
    ⟨derivativeT_outcome E e v, calculateT_outcome E e subs,
     integrateT_outcome E e v l u, simplify_expressionT_outcome E e,
     series_expansionT_outcome E e v n x0⟩

/-- Witness for C1 at the concrete model engine. -/
theorem claim_c1_witness :
    derivOutcome (derivativeT mEngine "x" "x").1 ∧
    calcOutcome (calculateT mEngine "x" none).1 :=
  ⟨(claim_c1_totality_and_taxonomy MExpr ℚ MOrd ℚ mEngine "x" "x" none none
      none (.intOrd 1) 0).1,
   (claim_c1_totality_and_taxonomy MExpr ℚ MOrd ℚ mEngine "x" "x" none none
      none (.intOrd 1) 0).2.1⟩

/-- C2.  Whenever the expression and the variable both parse and exactly
one of the two bounds is supplied, `integrate` returns the dedicated
bound-pairing validation error and its trace contains no integration
call — neither definite nor indefinite integration is attempted. -/
theorem claim_c2_bound_pairing :
    ∀ (σ ν ord pt : Type) (E : Engine σ ν ord pt) (e v : String)
      (l u : Option String),
      (∃ a, E.sympify v = .ok a) → (∃ a, E.sympify e = .ok a) →
      ((l.isSome ∧ u = none) ∨ (l = none ∧ u.isSome)) →
      (integrateT E e v l u).1 = .err .validationErr boundsMsg ∧
      EngineCall.integDefCall ∉ (integrateT E e v l u).2 ∧
      EngineCall.integIndefCall ∉ (integrateT E e v l u).2 := by
  intro σ ν ord pt E e v l u hv he hone
  obtain ⟨var, hv⟩ := hv
  obtain ⟨expr, he⟩ := he
  rw [integrateT_oneBound hv he hone]
  exact ⟨rfl, by simp, by simp⟩

/-- Witness for C2: `integrate("x", "x", "0", None)` on the model
engine. -/
theorem claim_c2_witness :
    (integrateT mEngine "x" "x" (some "0") none).1 =
      .err .validationErr boundsMsg ∧
    EngineCall.integDefCall ∉ (integrateT mEngine "x" "x" (some "0") none).2 ∧
    EngineCall.integIndefCall ∉
      (integrateT mEngine "x" "x" (some "0") none).2 :=
  claim_c2_bound_pairing MExpr ℚ MOrd ℚ mEngine "x" "x" (some "0") none
    ⟨MExpr.sym "x", by decide⟩ ⟨MExpr.sym "x", by decide⟩
    (Or.inl ⟨rfl, rfl⟩)

/-- C5.  When the variable text fails to parse, `derivative`, `integrate`
and `series_expansion` all return the variable's parse-error result at
once, with a trace showing the variable's `sympify` as the only engine
call — the expression is never parsed — and the result is the same for
any two expression texts. -/
theorem claim_c5_variable_fail_fast :
    ∀ (σ ν ord pt : Type) (E : Engine σ ν ord pt) (v : String)
      (se : SymErr), E.sympify v = .error se →
      ∀ (e e' : String) (l u : Option String) (n : ord) (x0 : pt),
      derivativeT E e v =
        (.err (sympifyFailRes se).1 (sympifyFailRes se).2, [.sympifyCall v]) ∧
      integrateT E e v l u =
        (.err (sympifyFailRes se).1 (sympifyFailRes se).2, [.sympifyCall v]) ∧
      series_expansionT E e v n x0 =
        (.err (sympifyFailRes se).1 (sympifyFailRes se).2, [.sympifyCall v]) ∧
      derivativeT E e v = derivativeT E e' v ∧
      integrateT E e v l u = integrateT E e' v l u ∧
      series_expansionT E e v n x0 = series_expansionT E e' v n x0 := by
  intro σ ν ord pt E v se hv e e' l u n x0
  refine ⟨derivativeT_varFail hv e, integrateT_varFail hv e l u,
    series_expansionT_varFail hv e n x0, ?_, ?_, ?_⟩
  · rw [derivativeT_varFail hv e, derivativeT_varFail hv e']
  · rw [integrateT_varFail hv e l u, integrateT_varFail hv e' l u]
  · rw [series_expansionT_varFail hv e n x0,
      series_expansionT_varFail hv e' n x0]

/-- Witness for C5: the unparsable variable `"x +"` on the model engine,
with two different expression texts. -/
theorem claim_c5_witness :
    derivativeT mEngine "x" "x +" =
      (.err .parseErr parseMsg, [.sympifyCall "x +"]) ∧
    derivativeT mEngine "x" "x +" = derivativeT mEngine "y**3" "x +" := by
  have h := claim_c5_variable_fail_fast MExpr ℚ MOrd ℚ mEngine "x +"
    .sympifyError (by decide) "x" "y**3" none none (.intOrd 1) 0
  exact ⟨h.1, h.2.2.2.1⟩

/-- C9.  `calculate` with the empty substitution map returns exactly the
result of `calculate` with no map at all: the substitution stage is
skipped (no `subs` engine call appears in the trace), so the empty map
can never produce a substitution-stage error message. -/
theorem claim_c9_empty_subs :
    ∀ (σ ν ord pt : Type) (E : Engine σ ν ord pt) (e : String),
      calculateT E e (some ([] : List (String × ν))) = calculateT E e none ∧
      EngineCall.subsCall ∉ (calculateT E e (some ([] : List (String × ν)))).2 ∧
      ∀ k d, (calculateT E e (some ([] : List (String × ν)))).1 ≠
        .err k ("Ошибка в подстановке переменных: " ++ d) := by
  intro σ ν ord pt E e
  cases he : E.sympify e with
  | error se =>
    rw [calculateT_exprFail he (some []), calculateT_exprFail he none]
    refine ⟨rfl, by simp, ?_⟩
    intro k d h
    cases se with
    | sympifyError =>
      injection h with h1 h2
      exact fixed_ne_append parseMsg "Ошибка в подстановке переменных: " d 7
        (by decide) (by decide) h2
    | exc msg =>
      injection h with h1 h2
      exact append_ne_append_of_take_ne "Ошибка: "
        "Ошибка в подстановке переменных: " msg d 7 (by decide) (by decide)
        (by decide) h2
  | ok expr0 =>
    rw [calculateT_skip_subs he (some []) (Or.inr rfl),
      calculateT_skip_subs he none (Or.inl rfl)]
    refine ⟨rfl, ?_, ?_⟩
    · cases hev : E.evalf expr0 <;> simp
    · intro k d h
      cases hev : E.evalf expr0 with
      | ok r => rw [hev] at h; exact absurd h (by simp)
      | error msg =>
        rw [hev] at h
        injection h with h1 h2
        exact append_ne_append_of_take_ne "Ошибка при вычислении: "
          "Ошибка в подстановке переменных: " msg d 8 (by decide) (by decide)
          (by decide) h2

/-- Witness for C9 at the model engine. -/
theorem claim_c9_witness :
    calculateT mEngine "x" (some ([] : List (String × ℚ))) =
      calculateT mEngine "x" none :=
  (claim_c9_empty_subs MExpr ℚ MOrd ℚ mEngine "x").1

/-- C10.  Over any engine and any input, every failure result of the five
operations — including the error slot of `calculate`'s pair — is a string
beginning with "Ошибка". -/
theorem claim_c10_error_marker :
    ∀ (σ ν ord pt : Type) (E : Engine σ ν ord pt) (e v : String)
      (l u : Option String) (subs : Option (List (String × ν)))
      (n : ord) (x0 : pt),
      (∀ k m, (derivativeT E e v).1 = .err k m → isErrorMarked m) ∧
      (∀ k m, (calculateT E e subs).1 = .err k m → isErrorMarked m) ∧
      (∀ k m, (integrateT E e v l u).1 = .err k m → isErrorMarked m) ∧
      (∀ k m, (simplify_expressionT E e).1 = .err k m → isErrorMarked m) ∧
      (∀ k m, (series_expansionT E e v n x0).1 = .err k m → isErrorMarked m) := by
  intro σ ν ord pt E e v l u subs n x0
  refine ⟨?_, ?_, ?_, ?_, ?_⟩
  · intro k m h
    rcases derivativeT_outcome E e v with ⟨s, hs⟩ | hs | ⟨d, hs⟩ | ⟨d, hs⟩ <;>
      rw [hs] at h
    · exact absurd h (by simp)
    · injection h with h1 h2; subst h2; decide
    · injection h with h1 h2; subst h2
      exact marked_concat "Ошибка: " (by decide) (by decide) d
    · injection h with h1 h2; subst h2
      exact marked_concat2 "Ошибка: невозможно вычислить производную (" d ")"
        (by decide) (by decide)
  · intro k m h
    rcases calculateT_outcome E e subs with
      ⟨t, val, hs⟩ | hs | ⟨d, hs⟩ | ⟨d, hs⟩ | ⟨d, hs⟩ <;> rw [hs] at h
    · exact absurd h (by simp)
    · injection h with h1 h2; subst h2; decide
    · injection h with h1 h2; subst h2
      exact marked_concat "Ошибка: " (by decide) (by decide) d
    · injection h with h1 h2; subst h2
      exact marked_concat "Ошибка в подстановке переменных: " (by decide)
        (by decide) d
    · injection h with h1 h2; subst h2
      exact marked_concat "Ошибка при вычислении: " (by decide) (by decide) d
  · intro k m h
    rcases integrateT_outcome E e v l u with
      ⟨s, hs⟩ | hs | ⟨d, hs⟩ | hs | hs | ⟨d, hs⟩ | ⟨d, hs⟩ <;> rw [hs] at h
    · exact absurd h (by simp)
    · injection h with h1 h2; subst h2; decide
    · injection h with h1 h2; subst h2
      exact marked_concat "Ошибка: " (by decide) (by decide) d
    · injection h with h1 h2; subst h2; decide
    · injection h with h1 h2; subst h2; decide
    · injection h with h1 h2; subst h2
      exact marked_concat "Ошибка при вычислении определенного интеграла: "
        (by decide) (by decide) d
    · injection h with h1 h2; subst h2
      exact marked_concat "Ошибка при вычислении неопределенного интеграла: "
        (by decide) (by decide) d
  · intro k m h
    rcases simplify_expressionT_outcome E e with
      ⟨s, hs⟩ | hs | ⟨d, hs⟩ | ⟨d, hs⟩ <;> rw [hs] at h
    · exact absurd h (by simp)
    · injection h with h1 h2; subst h2; decide
    · injection h with h1 h2; subst h2
      exact marked_concat "Ошибка: " (by decide) (by decide) d
    · injection h with h1 h2; subst h2
      exact marked_concat "Ошибка при упрощении: " (by decide) (by decide) d
  · intro k m h
    rcases series_expansionT_outcome E e v n x0 with
      ⟨s, hs⟩ | hs | ⟨d, hs⟩ | ⟨d, hs⟩ <;> rw [hs] at h
    · exact absurd h (by simp)
    · injection h with h1 h2; subst h2; decide
    · injection h with h1 h2; subst h2
      exact marked_concat "Ошибка: " (by decide) (by decide) d
    · injection h with h1 h2; subst h2
      exact marked_concat "Ошибка при разложении в ряд: " (by decide)
        (by decide) d

/-- Witness for C10: a concrete failing parse on the model engine. -/
theorem claim_c10_witness : isErrorMarked parseMsg :=
  (claim_c10_error_marker MExpr ℚ MOrd ℚ mEngine "x" "(" none none none
      (.intOrd 1) 0).1 .parseErr parseMsg (by decide)

/-- C6.  On the model engine, for every expression text that parses and
every variable text naming a symbol that does not occur in it,
`derivative` succeeds and returns the string "0" (differentiation with
respect to an absent symbol evaluates to the zero numeral, as in
SymPy). -/
theorem claim_c6_absent_variable :
    ∀ (e v : String) (a : MExpr) (s : String),
      msympify e = .ok a → msympify v = .ok (.sym s) → s ∉ mvars a →
      derivativeT mEngine e v =
        (.ok "0", [.sympifyCall v, .sympifyCall e, .diffCall]) := by
  intro e v a s he hv hs
  have hd : mEngine.diff a (.sym s) = .ok (.num 0) := by
    show mdiffE a (.sym s) = .ok (.num 0)
    simp [mdiffE, ediff_not_occurs a s hs]
  rw [derivativeT_diff_ok (E := mEngine) hv he hd]
  show (OpResult.ok (mstr (MExpr.num 0)), _) = _
  rw [mstr_zero]

unseal Rat.add Rat.mul Rat.inv Rat.sub in
/-- Witness for C6: `derivative("x**2", "y")` returns `"0"`. -/
theorem claim_c6_witness :
    derivativeT mEngine "x**2" "y" =
      (.ok "0", [.sympifyCall "y", .sympifyCall "x**2", .diffCall]) :=
  claim_c6_absent_variable "x**2" "y"
    (MExpr.pow (MExpr.sym "x") (MExpr.num 2)) "y"
    (by decide) (by decide) (by decide)

/-- C7.  On the model engine, `simplify_expression` is idempotent as a
string function on every well-formed expression text: applying it to its
own output returns that output unchanged (parsing auto-evaluates to the
canonical form, the engine's simplification is canonicalisation, and
printing then re-parsing is the identity on canonical forms). -/
theorem claim_c7_simplify_idempotent :
    ∀ (e : String) (a : MExpr), msympify e = .ok a →
      (simplify_expressionT mEngine
          ((simplify_expressionT mEngine e).1.render)).1.render =
        (simplify_expressionT mEngine e).1.render := by
  intro e a he
  have hca := msympify_canon he
  have h1 : simplify_expressionT mEngine e =
      (.ok (mstr a), [.sympifyCall e, .simplifyCall]) :=
    simplify_mEngine_ok he hca
  have h2 : simplify_expressionT mEngine (mstr a) =
      (.ok (mstr a), [.sympifyCall (mstr a), .simplifyCall]) :=
    simplify_mEngine_ok (msympify_mstr hca) hca
  rw [h1]
  show (simplify_expressionT mEngine (mstr a)).1.render = mstr a
  rw [h2]
  rfl

unseal Rat.add Rat.mul Rat.inv Rat.sub in
/-- Witness for C7: simplifying `"x + 0"` twice equals simplifying it
once (both give `"x"`). -/
theorem claim_c7_witness :
    (simplify_expressionT mEngine
        ((simplify_expressionT mEngine "x + 0").1.render)).1.render =
      (simplify_expressionT mEngine "x + 0").1.render :=
  claim_c7_simplify_idempotent "x + 0" (MExpr.sym "x") (by decide)

unseal Rat.add Rat.mul Rat.inv Rat.sub in
/-- C3.  Refuted (code bug relative to the spec): on the model engine —
whose `evalf`, like SymPy's, does not raise when free symbols remain but
returns the partially evaluated expression — `calculate("x + 1")` with no
substitutions leaves the free variable `x`, yet the operation returns a
success pair (expression text alongside a value) instead of the claimed
evaluation-stage error with an empty value slot. -/
theorem claim_c3_free_vars_success_pair :
    (calculateT mEngine "x + 1" none).1 =
      CalcResult.ok (mstr (MExpr.add (MExpr.sym "x") (MExpr.num 1)))
        (MExpr.add (MExpr.sym "x") (MExpr.num 1)) ∧
    mvars (MExpr.add (MExpr.sym "x") (MExpr.num 1)) = ["x"] ∧
    ((calculateT mEngine "x + 1" none).1.render).2 ≠ none := by
  refine ⟨by decide, by decide, by decide⟩

/-- C4.  Corrected property: the source forwards the order argument to
the engine without any validation, so for every engine and all inputs
that parse, the expansion capability is always invoked (the trace
contains the series call) and a validation-kind error is never returned —
a bad order surfaces only afterwards, as the engine's own
evaluation-kind error. -/
theorem claim_c4_no_order_validation :
    ∀ (σ ν ord pt : Type) (E : Engine σ ν ord pt) (e v : String)
      (var expr : σ) (n : ord) (x0 : pt),
      E.sympify v = .ok var → E.sympify e = .ok expr →
      EngineCall.seriesCall ∈ (series_expansionT E e v n x0).2 ∧
      ∀ msg, (series_expansionT E e v n x0).1 ≠
        .err .validationErr msg := by
  intro σ ν ord pt E e v var expr n x0 hv he
  rw [series_expansionT_run hv he n x0]
  cases hs : E.seriesE expr var x0 n with
  | ok r => exact ⟨by simp, by simp⟩
  | error m => exact ⟨by simp, by simp⟩

unseal Rat.add Rat.mul Rat.inv Rat.sub in
/-- Witness for C4: with the runtime string "5" as the order value the
expansion is still invoked and no validation error is produced. -/
theorem claim_c4_witness :
    EngineCall.seriesCall ∈
      (series_expansionT mEngine "x" "x" (MOrd.strOrd "5") (0 : ℚ)).2 ∧
    ∀ msg,
      (series_expansionT mEngine "x" "x" (MOrd.strOrd "5") (0 : ℚ)).1 ≠
        .err .validationErr msg :=
  claim_c4_no_order_validation MExpr ℚ MOrd ℚ mEngine "x" "x"
    (MExpr.sym "x") (MExpr.sym "x") (MOrd.strOrd "5") 0
    (by decide) (by decide)

unseal Rat.add Rat.mul Rat.inv Rat.sub in
/-- Counterexample to C4 as stated: a non-numeric order (the string "5",
as Python would pass a `str`) reaches the engine — the trace records the
expansion call — and the operation fails with an evaluation-kind error
carrying the engine's comparison complaint, not with a validation error
raised before the engine call. -/
theorem claim_c4_counterexample :
    series_expansionT mEngine "x" "x" (MOrd.strOrd "5") (0 : ℚ) =
      (.err .evaluationErr
         ("Ошибка при разложении в ряд: " ++
          "unsupported comparison between instances of str and int"),
       [.sympifyCall "x", .sympifyCall "x", .seriesCall]) := by decide

/-- C8.  On the model engine: for every expression text and variable text
that parse (the variable to a symbol occurring free in the expression),
if indefinite `integrate` succeeds then `derivative` of the returned text
with respect to the same variable succeeds, and the result is
algebraically equivalent to the original expression — equal rational
value under every assignment of the symbols. -/
theorem claim_c8_integrate_derivative_roundtrip :
    ∀ (e v out : String) (a : MExpr) (s : String),
      msympify e = .ok a → msympify v = .ok (.sym s) → s ∈ mvars a →
      (integrateT mEngine e v none none).1 = .ok out →
      ∃ D : MExpr, (derivativeT mEngine out v).1 = .ok (mstr D) ∧
        ∀ ρ : String → ℚ, meval D ρ = meval a ρ := by
  intro e v out a s he hv hfree hint
  rw [integrateT_noBounds (E := mEngine) hv he] at hint
  cases hii : mEngine.integIndef a (.sym s) with
  | error m =>
    rw [hii] at hint
    have h' : OpResult.err .evaluationErr
        ("Ошибка при вычислении неопределенного интеграла: " ++ m) =
        OpResult.ok out := hint
    cases h'
  | ok i =>
    rw [hii] at hint
    have hout : mstr i = out := by
      have h' : OpResult.ok (mstr i) = OpResult.ok out := hint
      injection h'
    subst hout
    have hii' : mintegIndef a (.sym s) = .ok i := hii
    rw [show mintegIndef a (.sym s) =
      (match toPoly a s with
       | some p => .ok (fromPoly (polyInteg p) s)
       | none =>
           (.error "integral could not be computed" : Except String MExpr))
      from rfl] at hii'
    cases hp : toPoly a s with
    | none => rw [hp] at hii'; cases hii'
    | some p =>
      rw [hp] at hii'
      have hi : fromPoly (polyInteg p) s = i := by
        have h' : (Except.ok (fromPoly (polyInteg p) s) :
            Except String MExpr) = .ok i := hii'
        injection h'
      subst hi
      have hws : wfIdent s = true := msympify_canon hv
      have hcanon : canonB (fromPoly (polyInteg p) s) = true :=
        fromPolyAux_canon hws (polyInteg p) 0
      obtain ⟨r, hr, hmr⟩ := toPoly_fromPolyAux (s := s) (polyInteg p) 0
      obtain ⟨d, hd, hmd⟩ := ediff_deriv
        (show toPoly (fromPoly (polyInteg p) s) s = some r from hr)
      have hdiff : mEngine.diff (fromPoly (polyInteg p) s) (.sym s) =
          .ok d := by
        show mdiffE (fromPoly (polyInteg p) s) (.sym s) = .ok d
        rw [show mdiffE (fromPoly (polyInteg p) s) (.sym s) =
          (match ediff (fromPoly (polyInteg p) s) s with
           | some d0 => .ok d0
           | none =>
               (.error "unsupported derivative" : Except String MExpr))
          from rfl, hd]
      have hre : msympify (mstr (fromPoly (polyInteg p) s)) =
          .ok (fromPoly (polyInteg p) s) := msympify_mstr hcanon
      refine ⟨d, ?_, ?_⟩
      · rw [derivativeT_diff_ok (E := mEngine) hv hre hdiff]
        rfl
      · intro ρ
        rw [hmd ρ, hmr, pow_zero, one_mul, derivative_polyInteg,
          meval_toPoly a s p ρ hp, evalPoly_eq]

unseal Rat.add Rat.mul Rat.inv Rat.sub in
/-- Witness for C8: integrating `"x"` indefinitely gives the text of
`x**2 / 2`, whose derivative is an expression equivalent to `x`. -/
theorem claim_c8_witness :
    msympify "x" = .ok (MExpr.sym "x") ∧
    ∃ D : MExpr,
      (derivativeT mEngine
        (mstr (MExpr.mul (MExpr.num (1/2))
          (MExpr.pow (MExpr.sym "x") (MExpr.num 2)))) "x").1 =
        .ok (mstr D) ∧
      ∀ ρ : String → ℚ, meval D ρ = meval (MExpr.sym "x") ρ :=
  ⟨by decide,
   claim_c8_integrate_derivative_roundtrip "x" "x"
     (mstr (MExpr.mul (MExpr.num (1/2))
       (MExpr.pow (MExpr.sym "x") (MExpr.num 2))))
     (MExpr.sym "x") "x" (by decide) (by decide) (by decide) (by decide)⟩

end Claims

end CalculusCore
